import Mathlib

/-!
Verification of the `pipr` requirement checker (`src/pipr/pipr.py`) against its
natural-language specification.

The Python code is shallowly embedded: Python strings are `List Char`, Python
exceptions are the `.error` case of `Except String`, external collaborators
(the installed-package index `importlib.metadata.version`, the PyPI lookup,
`subprocess`, `Confirm.ask`) are passed in as explicit function or list
parameters.  The `packaging` library (a third-party collaborator, out of scope
per the spec) is modelled on its numeric-release fragment: versions are lists
of numeric components compared with zero padding, specifier sets are
conjunctions of operator/version clauses; inputs outside this fragment make
the model raise, which mirrors `InvalidVersion`/`InvalidSpecifier`.
-/

namespace Pipr

/-- Characters of a Lean string literal, used to write Python string values. -/
def chars (s : String) : List Char := s.toList

/-- Whitespace as recognised by Python `str.strip`. -/
def isPyWhite (c : Char) : Bool :=
  c = ' ' || c = '\t' || c = '\n' || c = '\x0d' || c = '\x0b' || c = '\x0c'

/-- Python `str.lstrip()`. -/
def stripLeft (l : List Char) : List Char := l.dropWhile isPyWhite

/-- Python `str.rstrip()`. -/
def stripRight (l : List Char) : List Char := l.rdropWhile isPyWhite

/-- Python `str.strip()`. -/
def pyStrip (l : List Char) : List Char := stripRight (stripLeft l)

/-- Python `str.split(sep)` for a one-character separator (no maxsplit). -/
def pySplit (sep : Char) : List Char → List (List Char)
  | [] => [[]]
  | c :: cs =>
    if c = sep then [] :: pySplit sep cs
    else
      match pySplit sep cs with
      | [] => [[c]]
      | p :: ps => (c :: p) :: ps

/-- Fuelled worker for `pySplitSeq`; the fuel only guards structural
recursion and `l.length` fuel is always sufficient for a nonempty
separator. -/
def pySplitSeqAux (sep : List Char) : Nat → List Char → List (List Char)
  | _, [] => [[]]
  | 0, l => [l]
  | f + 1, c :: cs =>
    if sep.isPrefixOf (c :: cs) then
      [] :: pySplitSeqAux sep f ((c :: cs).drop sep.length)
    else
      match pySplitSeqAux sep f cs with
      | [] => [[c]]
      | p :: ps => (c :: p) :: ps

/-- Python `str.split(sep)` for a multi-character separator (used for
`spec.split("==")`). -/
def pySplitSeq (sep : List Char) (l : List Char) : List (List Char) :=
  pySplitSeqAux sep l.length l

/-- Python `sep.join(parts)`. -/
def joinSep (sep : List Char) : List (List Char) → List Char
  | [] => []
  | [x] => x
  | x :: xs => x ++ sep ++ joinSep sep xs

/-- Python `sub in s` substring test. -/
def containsSeq (sub : List Char) : List Char → Bool
  | [] => sub.isEmpty
  | c :: cs => sub.isPrefixOf (c :: cs) || containsSeq sub cs

/-- Decimal digit characters of a natural number, most significant first;
the fuel `n + 1` always suffices.  Models Python `str` on a non-negative
`int`. -/
def natToCharsAux : Nat → Nat → List Char → List Char
  | 0, _, acc => acc
  | f + 1, n, acc =>
    let acc' := Char.ofNat (48 + n % 10) :: acc
    if n < 10 then acc' else natToCharsAux f (n / 10) acc'

/-- Python `str(n)` for a natural number. -/
def natToChars (n : Nat) : List Char := natToCharsAux (n + 1) n []

/-- Python `str(i)` for an `int`. -/
def intToChars (i : Int) : List Char :=
  if i < 0 then '-' :: natToChars i.natAbs else natToChars i.toNat

/-- Value of a most-significant-first decimal digit string. -/
def digitsValNat (ds : List Char) : Nat :=
  ds.foldl (fun a c => a * 10 + (c.toNat - 48)) 0

/-- Python `int(s)`: optional surrounding whitespace, optional sign, at
least one digit (digit-group underscores are not modelled).  `.error`
models `ValueError`. -/
def pyInt (s : List Char) : Except String Int :=
  match pyStrip s with
  | [] => .error "ValueError"
  | c :: r =>
    if c = '+' then
      if r ≠ [] ∧ r.all Char.isDigit then .ok (digitsValNat r) else .error "ValueError"
    else if c = '-' then
      if r ≠ [] ∧ r.all Char.isDigit then .ok (-(digitsValNat r : Int)) else .error "ValueError"
    else
      if (c :: r).all Char.isDigit then .ok (digitsValNat (c :: r)) else .error "ValueError"

/-- First error of a list of results, or the list of values: the effect of
evaluating a Python list comprehension whose elements may raise. -/
def collectE : List (Except String (List Char)) → Except String (List (List Char))
  | [] => .ok []
  | .error e :: _ => .error e
  | .ok a :: rest => (collectE rest).map (a :: ·)

/-- Test for the regex `^(>=|<=|<|>|==)` of `convert_spec`. -/
def isRangeOpStart (t : List Char) : Bool :=
  List.isPrefixOf (chars ">=") t || List.isPrefixOf (chars "<=") t ||
  List.isPrefixOf (chars "<") t || List.isPrefixOf (chars ">") t ||
  List.isPrefixOf (chars "==") t

/-- Test for the regex `^\d+(\.\d+)*$` of `convert_spec`: dot-separated
nonempty digit groups. -/
def isDottedNum (t : List Char) : Bool :=
  (pySplit '.' t).all fun p => p ≠ [] && p.all Char.isDigit

/-- Model of `convert_caret` (pipr.py lines 886-898).  `parts` is padded with `"0"`
to three components; a component that is not an integer, or more than three
components (Python's tuple-unpacking `ValueError`), raises. -/
def convert_caret (version : List Char) : Except String (List Char) := do
  let parts := pySplit '.' version
  let parts := parts ++ List.replicate (3 - parts.length) ['0']
  match parts with
  | a :: b :: c :: rest => do
    let major ← pyInt a
    let minor ← pyInt b
    let patch ← pyInt c
    match rest with
    | [] =>
      let upper :=
        if major > 0 then intToChars (major + 1) ++ chars ".0.0"
        else if minor > 0 then chars "0." ++ intToChars (minor + 1) ++ chars ".0"
        else chars "0.0." ++ intToChars (patch + 1)
      .ok (chars ">=" ++ version ++ [','] ++ '<' :: upper)
    | _ => .error "ValueError"
  | _ => .error "ValueError"

/-- Model of `convert_tilde` (pipr.py lines 904-910). -/
def convert_tilde (version : List Char) : Except String (List Char) := do
  let parts := pySplit '.' version
  let parts := parts ++ List.replicate (3 - parts.length) ['0']
  match parts with
  | a :: b :: c :: rest => do
    let major ← pyInt a
    let minor ← pyInt b
    let _patch ← pyInt c
    match rest with
    | [] =>
      let upper := intToChars major ++ ['.'] ++ intToChars (minor + 1) ++ chars ".0"
      .ok (chars ">=" ++ version ++ [','] ++ '<' :: upper)
    | _ => .error "ValueError"
  | _ => .error "ValueError"

/-- Model of `convert_wildcard` (pipr.py lines 916-930).  `int(parts[0])` runs before
the shape checks, so a non-numeric leading component raises; an unsupported
shape prints a warning and returns the empty string. -/
def convert_wildcard (spec : List Char) : Except String (List Char) := do
  let parts := pySplit '.' spec
  let major ← pyInt (parts.headD [])
  if parts.length = 2 ∧ parts.getD 1 [] = ['*'] then
    .ok (chars ">=" ++ intToChars major ++ chars ".0,<" ++ intToChars (major + 1) ++ chars ".0")
  else if parts.length = 3 ∧ parts.getD 2 [] = ['*'] then do
    let minor ← pyInt (parts.getD 1 [])
    .ok (chars ">=" ++ intToChars major ++ ['.'] ++ intToChars minor ++ chars ".0,<"
         ++ intToChars major ++ ['.'] ++ intToChars (minor + 1) ++ chars ".0")
  else
    .ok []

/-- Model of `convert_spec` (pipr.py lines 818-880), with explicit fuel standing in
for Python's call stack.  Recursive calls only happen on the pieces of a
`"|"` or `","` split, which contain no further separator of that kind, so
the recursion depth is at most two and fuel `3` is never exhausted. -/
def convert_spec_fuel : Nat → List Char → Except String (List Char)
  | 0, _ => .error "RecursionError"
  | f + 1, spec0 =>
    let spec := pyStrip spec0
    if spec.contains '|' then
      match collectE ((pySplit '|' spec).map (convert_spec_fuel f)) with
      | .error e => .error e
      | .ok parts => .ok (joinSep (chars " | ") parts)
    else if spec.contains ',' then
      match collectE ((pySplit ',' spec).map (convert_spec_fuel f)) with
      | .error e => .error e
      | .ok parts => .ok (joinSep [','] parts)
    else if List.isPrefixOf ['^'] spec then convert_caret (pyStrip (spec.drop 1))
    else if List.isPrefixOf ['~'] spec then convert_tilde (pyStrip (spec.drop 1))
    else if spec.contains '*' then convert_wildcard spec
    else if isRangeOpStart spec then .ok (spec.filter (fun c => c ≠ ' '))
    else if isDottedNum spec then .ok ('=' :: '=' :: spec)
    else .ok []

/-- Entry point of `convert_spec` at its always-sufficient fuel. -/
def convert_spec (spec : List Char) : Except String (List Char) :=
  convert_spec_fuel 3 spec

/-- Character class `[A-Za-z0-9_.-]` of the name/constraint tokenizer regex
in `parse_requirements` and `parse_deps`. -/
def isNameChar (c : Char) : Bool :=
  c.isAlpha || c.isDigit || c = '_' || c = '.' || c = '-'

/-- Marker handling of `parse_requirements` (pipr.py lines 405-413): when
the line has a `;`, split it at the first `;` into stripped `pkg` and
`cond` and drop the line (`none`) when the substring tests of lines 408-411
fire, otherwise continue with `pkg`; a line without `;` continues
unchanged. -/
def dropByMarker (sysName line : List Char) : Option (List Char) :=
  if line.contains ';' then
    let pkg := pyStrip (line.takeWhile (· ≠ ';'))
    let cond := pyStrip (line.drop ((line.takeWhile (· ≠ ';')).length + 1))
    if containsSeq (chars "sys_platform") cond &&
       ((containsSeq (chars "win32") cond && sysName ≠ chars "windows") ||
        (containsSeq (chars "linux") cond && sysName ≠ chars "linux")) then
      none
    else some pkg
  else some line

/-- Per-line body of `parse_requirements` (pipr.py lines 400-422): skip
blank and `#` lines, apply the marker handling, then tokenize with the
regex `([A-Za-z0-9_.-]+)(.*)` (no match: skip; empty trailing constraint:
`None`). -/
def parseReqLine (sysName l : List Char) : Option (List Char × Option (List Char)) :=
  let line := pyStrip l
  if line = [] || List.isPrefixOf ['#'] line then none
  else
    match dropByMarker sysName line with
    | none => none
    | some line =>
      let name := line.takeWhile isNameChar
      if name = [] then none
      else
        let spec := pyStrip (line.drop name.length)
        some (name, if spec = [] then none else some spec)

/-- Model of `parse_requirements` (pipr.py lines 395-423), over the list of lines of
the file and with `platform.system().lower()` passed in as `sysName`. -/
def parse_requirements (sysName : List Char) : List (List Char) → List (List Char × Option (List Char))
  | [] => []
  | l :: rest =>
    match parseReqLine sysName l with
    | none => parse_requirements sysName rest
    | some r => r :: parse_requirements sysName rest

/-! ### The numeric-release fragment of the external `packaging` library -/

/-- Release components of a version, as parsed by `packaging.version.parse`
restricted to dotted numeric releases; `none` models `InvalidVersion`. -/
def parseVersion (s : List Char) : Option (List Nat) :=
  let parts := pySplit '.' (pyStrip s)
  if parts.all (fun p => p ≠ [] && p.all Char.isDigit) then
    some (parts.map digitsValNat)
  else none

/-- Strict version order: lexicographic on components with implicit zero
padding, as `packaging` compares numeric releases. -/
def verLt : List Nat → List Nat → Bool
  | [], [] => false
  | [], y :: ys => if y = 0 then verLt [] ys else true
  | _ :: _, [] => false
  | x :: xs, y :: ys => x < y || (x = y && verLt xs ys)

/-- Version equality modulo trailing zeros (`1.0 == 1.0.0` in `packaging`). -/
def verEq (a b : List Nat) : Bool :=
  (a.reverse.dropWhile (· = 0)) = (b.reverse.dropWhile (· = 0))

/-- A single specifier clause. -/
inductive SpecOp | eq | ne | le | ge | lt | gt
deriving DecidableEq, Repr

/-- One parsed clause of a `SpecifierSet`. -/
structure SpecClause where
  op : SpecOp
  ver : List Nat
deriving DecidableEq, Repr

/-- Parse one specifier clause; `none` models `InvalidSpecifier`. -/
def parseClause (p : List Char) : Option SpecClause :=
  let t := pyStrip p
  if List.isPrefixOf (chars ">=") t then (parseVersion (t.drop 2)).map (⟨.ge, ·⟩)
  else if List.isPrefixOf (chars "<=") t then (parseVersion (t.drop 2)).map (⟨.le, ·⟩)
  else if List.isPrefixOf (chars "==") t then (parseVersion (t.drop 2)).map (⟨.eq, ·⟩)
  else if List.isPrefixOf (chars "!=") t then (parseVersion (t.drop 2)).map (⟨.ne, ·⟩)
  else if List.isPrefixOf (chars ">") t then (parseVersion (t.drop 1)).map (⟨.gt, ·⟩)
  else if List.isPrefixOf (chars "<") t then (parseVersion (t.drop 1)).map (⟨.lt, ·⟩)
  else none

/-- Model of `packaging.specifiers.SpecifierSet(s)`: comma-separated clauses, empty
pieces skipped; `none` models `InvalidSpecifier`. -/
def parseSpecSet (s : List Char) : Option (List SpecClause) :=
  (((pySplit ',' s).map pyStrip).filter (· ≠ [])).mapM parseClause

/-- Whether one clause admits a version. -/
def clauseHolds (v : List Nat) : SpecClause → Bool
  | ⟨.eq, w⟩ => verEq v w
  | ⟨.ne, w⟩ => !verEq v w
  | ⟨.le, w⟩ => !verLt w v
  | ⟨.ge, w⟩ => !verLt v w
  | ⟨.lt, w⟩ => verLt v w
  | ⟨.gt, w⟩ => verLt w v

/-- Membership `v in spec_set`: all clauses must hold. -/
def verInSpecSet (v : List Nat) (ss : List SpecClause) : Bool :=
  ss.all (clauseHolds v)

/-- Lift `Option` (a `packaging` parse) into the exception monad. -/
def liftO (msg : String) : Option α → Except String α
  | none => .error msg
  | some a => .ok a

/-! ### The reconciliation engine (`miss_conflict_check`, `check_packages`) -/

/-- A requirement `(name, spec-or-None)` as produced by the source parsers. -/
abbrev Req := List Char × Option (List Char)

/-- Remote metadata for one package, as extracted from the PyPI JSON
response by `get_python_version_requirement` (the network fetch itself is an
external collaborator, passed in as a lookup function). -/
structure PypiData where
  requiresPython : Option (List Char)
deriving DecidableEq, Repr

/-- Model of `miss_conflict_check` (pipr.py lines 566-586): for one requirement,
returns the version-conflict entries and missing entries contributed by
that requirement alone.  `installed` is `importlib.metadata.version`
(`none` for `PackageNotFoundError`). -/
def miss_conflict_check (installed : List Char → Option (List Char))
    (pkg : List Char) (spec : Option (List Char)) :
    Except String (List (List Char × List Char × List Char) × List Req) :=
  match installed pkg with
  | some inst_ver =>
    match spec with
    | some sp =>
      if sp = [] then .ok ([], [])
      else do
        let iv ← liftO "InvalidVersion" (parseVersion inst_ver)
        let spec_set ← liftO "InvalidSpecifier" (parseSpecSet sp)
        if verInSpecSet iv spec_set then .ok ([], [])
        else .ok ([(pkg, inst_ver, sp)], [])
    | none => .ok ([], [])
  | none => .ok ([], [(pkg, spec)])

/-- Model of `check_python_version_compatibility` (pipr.py lines 243-261) inlined
with the `if requires_python:` guard of line 615: the conflict message for
one package, or `none` when compatible (a specifier-set parse error is
caught and treated as compatible).  `pyVer` is the running interpreter's
`(major, minor, micro)`. -/
def pythonConflictOf (pyVer : Nat × Nat × Nat) (pkg : List Char)
    (rp : Option (List Char)) : Option (List Char) :=
  match rp with
  | none => none
  | some s =>
    if s = [] then none
    else
      match parseSpecSet s with
      | none => none
      | some ss =>
        if verInSpecSet [pyVer.1, pyVer.2.1, pyVer.2.2] ss then none
        else some (chars "Package '" ++ pkg ++ chars "' requires Python " ++ s
                   ++ chars ", but current system has Python "
                   ++ natToChars pyVer.1 ++ ['.'] ++ natToChars pyVer.2.1 ++ ['.']
                   ++ natToChars pyVer.2.2)

/-- The first loop of `check_packages` (pipr.py lines 604-636): python
conflicts are appended across iterations, but `version_conflicts` and
`missing_packages` are rebound to the result of `miss_conflict_check` for
the current package alone, discarding earlier entries. -/
def checkLoop (pypi : List Char → Option PypiData)
    (installed : List Char → Option (List Char)) (pyVer : Nat × Nat × Nat) :
    List Req →
    List (List Char) × List (List Char × List Char × List Char) × List Req →
    Except String (List (List Char) × List (List Char × List Char × List Char) × List Req)
  | [], acc => .ok acc
  | (pkg, spec) :: rest, (pcs, _vcs, _miss) => do
    let pcs :=
      match pypi pkg with
      | none => pcs
      | some d =>
        match pythonConflictOf pyVer pkg d.requiresPython with
        | none => pcs
        | some m => pcs ++ [m]
    let (vcs, miss) ← miss_conflict_check installed pkg spec
    checkLoop pypi installed pyVer rest (pcs, vcs, miss)

/-- The per-row classification of the second `check_packages` loop
(pipr.py lines 692-758), abstracting the status strings and emoji set
there. -/
inductive RowStatus
  | notInstalled
  | exactMatch
  | mismatch
  | satisfied
  | outOfRange
  | noConstraint
deriving DecidableEq, Repr

/-- Body of the second `check_packages` loop (pipr.py lines 692-758) for
one requirement: the classification shown in the table, and the entry
appended to `to_install` (a not-installed package is appended in both the
auto and non-auto branches).  `version.parse` on the installed version runs
first (line 727), then `SpecifierSet(spec)` is constructed unconditionally
(line 729) — an invalid constraint raises `InvalidSpecifier` even when the
exact-match branch would be taken; a constraint containing `"=="` anywhere
is then handled by the exact-match branch, comparing against the text
after the first `"=="`. -/
def classifyRow (installed : List Char → Option (List Char))
    (pkg : List Char) (spec : Option (List Char)) :
    Except String (RowStatus × Option (List Char)) :=
  match installed pkg with
  | none => .ok (.notInstalled, some (pkg ++ spec.getD []))
  | some inst_ver => do
    let iv ← liftO "InvalidVersion" (parseVersion inst_ver)
    match spec with
    | none => .ok (.noConstraint, none)
    | some sp =>
      if sp = [] then .ok (.noConstraint, none)
      else do
        let spec_set ← liftO "InvalidSpecifier" (parseSpecSet sp)
        if containsSeq (chars "==") sp then do
          let req_ver := (pySplitSeq (chars "==") sp).getD 1 []
          let rv ← liftO "InvalidVersion" (parseVersion req_ver)
          if verEq iv rv then .ok (.exactMatch, none) else .ok (.mismatch, none)
        else
          if verInSpecSet iv spec_set then .ok (.satisfied, none)
          else .ok (.outOfRange, none)

/-- Observable actions of `check_packages` relevant to the dispatcher
claims (reporting, tables and notifications are not tracked). -/
inductive Effect
  | exitFailure
  | createVenv (name : List Char)
  | pipInstallPkg (pkg : List Char)
  | infiniteRetry (pkg : List Char)
  | batchInstall (pkgs : List (List Char))
deriving DecidableEq, Repr

/-- The `force_install` loop of `check_packages` (pipr.py lines 663-678):
one `pip install` per package; a failure is swallowed unless `force_retry`
is set, in which case a `while 1` loop retries the same command — under a
deterministic outcome oracle a failing command retries forever, recorded as
`infiniteRetry` with no further progress. -/
def forceInstallGo (pipPkgOk : List Char → Bool) (force_retry : Bool) :
    List Req → List Effect → Option Unit × List Effect
  | [], effs => (some (), effs)
  | (pkg, spec) :: rest, effs =>
    let target := pkg ++ spec.getD []
    let effs := effs ++ [.pipInstallPkg target]
    if pipPkgOk target then forceInstallGo pipPkgOk force_retry rest effs
    else if force_retry then (none, effs ++ [.infiniteRetry target])
    else forceInstallGo pipPkgOk force_retry rest effs

/-- The tuple returned by `check_packages`. -/
structure CheckRet where
  reqs : List Req
  to_install : List (List Char)
  python_conflicts : List (List Char)
  version_conflicts : List (List Char × List Char × List Char)
  missing : List Req
deriving DecidableEq, Repr

/-- Model of `check_packages` (pipr.py lines 588-785).  External collaborators are
parameters: `pypi` is the PyPI lookup, `installed` the package index,
`pyVer` the running interpreter version, `projectName` the result of
`get_project_name`, `pipPkgOk` the per-package installer outcome, `isMain`
whether the module runs as a script (`__name__ == '__main__'`).  The
returned `Option CheckRet` is `none` when the function does not return
normally (the `sys.exit(1)` of line 645, or a diverging forced retry);
`run_pip_install` is recorded as a `batchInstall` effect, its internal
retry behaviour being modelled separately by `run_pip_install_from_file`.
`.error` models an uncaught exception. -/
def check_packages (pypi : List Char → Option PypiData)
    (installed : List Char → Option (List Char)) (pyVer : Nat × Nat × Nat)
    (projectName : List Char) (pipPkgOk : List Char → Bool) (isMain : Bool)
    (reqs : List Req) (force_retry force_install summary_only _show auto_mode : Bool) :
    Except String (Option CheckRet × List Effect) :=
  match checkLoop pypi installed pyVer reqs ([], [], []) with
  | .error e => .error e
  | .ok (python_conflicts, version_conflicts, missing_packages) =>
  if python_conflicts ≠ [] ∧ isMain then
    .ok (none, [.exitFailure])
  else if version_conflicts ≠ [] ∧ ¬force_install ∧ auto_mode then
    let venv_name := projectName ++ chars "-env"
    .ok (some ⟨reqs, [], python_conflicts, version_conflicts, missing_packages⟩,
         [.createVenv venv_name])
  else if force_install then
    let (ret, effs) := forceInstallGo pipPkgOk force_retry reqs []
    .ok (ret.map fun _ => ⟨reqs, [], python_conflicts, version_conflicts, missing_packages⟩,
         effs)
  else do
    let rows ← reqs.mapM fun r => classifyRow installed r.1 r.2
    let to_install := rows.filterMap (·.2)
    if summary_only then
      .ok (some ⟨reqs, to_install, python_conflicts, version_conflicts, missing_packages⟩, [])
    else
      let effs := if to_install ≠ [] ∧ auto_mode then [Effect.batchInstall to_install] else []
      .ok (some ⟨reqs, to_install, python_conflicts, version_conflicts, missing_packages⟩,
           effs)

/-! ### The batch installer retry loop (`run_pip_install_from_file`) -/

/-- Worker for `run_pip_install_from_file`: `pipResults` are the outcomes of
successive `pip install -r` invocations, `answers` the successive replies to
`Confirm.ask("Retry installation?")`.  Returns `(result, invocations,
prompts)`, or `none` when the modelled outcome lists run out before the
function returns. -/
def runPipGo : Bool → List Bool → List Bool → Nat → Nat → Option (Bool × Nat × Nat)
  | _, [], _, _, _ => none
  | force_retry, r :: rs, answers, inv, pr =>
    if r then some (true, inv + 1, pr)
    else if force_retry then runPipGo false rs answers (inv + 1) pr
    else
      match answers with
      | [] => none
      | a :: rest => if a then runPipGo false rs rest (inv + 1) (pr + 1)
                     else some (false, inv + 1, pr + 1)

/-- Model of `run_pip_install_from_file` (pipr.py lines 533-555): invoke the
installer; on failure, if `force_retry` then recurse once with
`force_retry=False`, otherwise prompt and recurse (again with
`force_retry=False`) on a yes, give up on a no. -/
def run_pip_install_from_file (force_retry : Bool) (pipResults answers : List Bool) :
    Option (Bool × Nat × Nat) :=
  runPipGo force_retry pipResults answers 0 0

/-! ### Canonical range strings (for the idempotence claim) -/

/-- The space-removal a canonical term undergoes in the range-operator
branch of `convert_spec`. -/
def termNorm (q : List Char) : List Char :=
  (pyStrip q).filter (fun c => c ≠ ' ')

/-- A canonical term: after stripping it is nonempty, starts with a range
operator, and contains no wildcard star (the spec's canonical form has no
foreign-dialect tokens). -/
def canonicalTerm (q : List Char) : Bool :=
  let t := pyStrip q
  t ≠ [] && isRangeOpStart t && !t.contains '*'

/-- A canonical comma level: no `|`, and every comma piece is a canonical
term. -/
def canonicalAnd (p : List Char) : Bool :=
  let t := pyStrip p
  !t.contains '|' &&
    (if t.contains ',' then (pySplit ',' t).all canonicalTerm else canonicalTerm t)

/-- A canonical range string: `|`-joined canonical comma levels (claim C10's
"comma- or `|`-joined terms each beginning with a range operator"). -/
def canonicalSpec (c : List Char) : Bool :=
  let t := pyStrip c
  if t.contains '|' then (pySplit '|' t).all canonicalAnd else canonicalAnd t

/-- Comma-level normal form produced by `convert_spec` on a canonical
string: each comma piece normalised by `termNorm`, re-joined with `,`. -/
def andNorm (p : List Char) : List Char :=
  let t := pyStrip p
  if t.contains ',' then joinSep [','] ((pySplit ',' t).map termNorm) else termNorm p

/-- Full normal form produced by `convert_spec` on a canonical string: each
`|` piece normalised by `andNorm`, re-joined with `" | "`. -/
def specNorm (c : List Char) : List Char :=
  let t := pyStrip c
  if t.contains '|' then joinSep (chars " | ") ((pySplit '|' t).map andNorm) else andNorm c

/-! ### Concrete collaborator instances used to evaluate the model -/

/-- Package index with only `foo`, installed at version `1.0`. -/
def instFoo10 : List Char → Option (List Char) :=
  fun p => if p = chars "foo" then some (chars "1.0") else none

/-- Package index with only `b`, installed at version `1.0`. -/
def instOnlyB : List Char → Option (List Char) :=
  fun p => if p = chars "b" then some (chars "1.0") else none

/-- Empty package index: nothing installed. -/
def instNone : List Char → Option (List Char) := fun _ => none

/-- PyPI lookup that always fails (no remote metadata). -/
def pypiNone : List Char → Option PypiData := fun _ => none

/-- PyPI lookup where `foo` declares `requires_python=">=3.12"`. -/
def pypiFoo312 : List Char → Option PypiData :=
  fun p => if p = chars "foo" then some ⟨some (chars ">=3.12")⟩ else none

/-- Per-package installer that always succeeds. -/
def pipOk : List Char → Bool := fun _ => true

/-! ### Helper lemmas about the string primitives -/

theorem stripLeft_cons_white {c : Char} {l : List Char} (h : isPyWhite c = true) :
    stripLeft (c :: l) = stripLeft l := by
  simp [stripLeft, List.dropWhile_cons_of_pos h]

theorem stripLeft_cons_nonwhite {c : Char} {l : List Char} (h : isPyWhite c = false) :
    stripLeft (c :: l) = c :: l := by
  have h' : ¬isPyWhite c = true := by simp [h]
  simp [stripLeft, List.dropWhile_cons_of_neg h']

theorem stripRight_concat_white {c : Char} {l : List Char} (h : isPyWhite c = true) :
    stripRight (l ++ [c]) = stripRight l := by
  simp [stripRight, List.rdropWhile_concat_pos _ _ _ h]

theorem stripRight_concat_nonwhite {c : Char} {l : List Char} (h : isPyWhite c = false) :
    stripRight (l ++ [c]) = l ++ [c] := by
  have h' : ¬isPyWhite c = true := by simp [h]
  simp [stripRight, List.rdropWhile_concat_neg _ _ _ h']

theorem pyStrip_cons_white {c : Char} {l : List Char} (h : isPyWhite c = true) :
    pyStrip (c :: l) = pyStrip l := by
  simp [pyStrip, stripLeft_cons_white h]

theorem stripLeft_fixed_append {a : List Char} (hfix : stripLeft a = a) (hne : a ≠ [])
    (b : List Char) : stripLeft (a ++ b) = a ++ b := by
  simp only [stripLeft, List.dropWhile_append]
  rw [show a.dropWhile isPyWhite = a from hfix]
  simp [hne]

theorem stripRight_fixed_append (a : List Char) {b : List Char}
    (hfix : stripRight b = b) (hne : b ≠ []) : stripRight (a ++ b) = a ++ b := by
  have hb : b.reverse.dropWhile isPyWhite = b.reverse := by
    have := congrArg List.reverse hfix
    simpa [stripRight, List.rdropWhile] using this
  simp only [stripRight, List.rdropWhile, List.reverse_append]
  rw [List.dropWhile_append, hb]
  simp [hne]

theorem pyStrip_append_white {c : Char} {l : List Char} (h : isPyWhite c = true) :
    pyStrip (l ++ [c]) = pyStrip l := by
  simp only [pyStrip, stripLeft, List.dropWhile_append]
  rcases he : (l.dropWhile isPyWhite).isEmpty
  · simp only [Bool.false_eq_true, if_false]
    exact stripRight_concat_white h
  · simp only [if_true]
    have : [c].dropWhile isPyWhite = [] := by simp [h]
    rw [this]
    simp [stripRight, List.rdropWhile, List.isEmpty_iff.mp he]

theorem pyStrip_fixed_parts {l : List Char} (h : pyStrip l = l) :
    stripLeft l = l ∧ stripRight l = l := by
  have h1 : stripLeft l <:+ l := List.dropWhile_suffix _
  have h2 : stripRight (stripLeft l) <+: stripLeft l := List.rdropWhile_prefix _ _
  have hfix : stripLeft l = l := by
    have hlen1 : l.length ≤ (stripLeft l).length := by
      have := h2.length_le
      rw [show stripRight (stripLeft l) = l from h] at this
      exact this
    exact h1.eq_of_length (Nat.le_antisymm h1.length_le hlen1)
  refine ⟨hfix, ?_⟩
  have h' : stripRight (stripLeft l) = l := h
  rwa [hfix] at h'

theorem pyStrip_of_parts {l : List Char} (h1 : stripLeft l = l) (h2 : stripRight l = l) :
    pyStrip l = l := by
  simp [pyStrip, h1, h2]

theorem pyStrip_all_nonwhite {l : List Char} (h : ∀ c ∈ l, isPyWhite c = false) :
    pyStrip l = l := by
  refine pyStrip_of_parts ?_ ?_
  · cases l with
    | nil => rfl
    | cons c cs => exact stripLeft_cons_nonwhite (h c (by simp))
  · rw [stripRight, List.rdropWhile_eq_self_iff]
    intro hl
    simp [h _ (List.getLast_mem hl)]

theorem pySplit_ne_nil (sep : Char) (l : List Char) : pySplit sep l ≠ [] := by
  cases l with
  | nil => simp [pySplit]
  | cons c cs =>
    simp only [pySplit]
    rcases h : decide (c = sep) <;> simp at h <;> simp [h]
    rcases pySplit sep cs <;> simp

theorem pySplit_not_mem {sep : Char} {l : List Char} (h : sep ∉ l) :
    pySplit sep l = [l] := by
  induction l with
  | nil => rfl
  | cons c cs ih =>
    have hc : ¬c = sep := fun hc => h (by simp [hc])
    have hcs : sep ∉ cs := fun hm => h (by simp [hm])
    simp [pySplit, hc, ih hcs]

theorem pySplit_append_cons {sep : Char} {a : List Char} (h : sep ∉ a) (r : List Char) :
    pySplit sep (a ++ sep :: r) = a :: pySplit sep r := by
  induction a with
  | nil => simp [pySplit]
  | cons c cs ih =>
    have hc : ¬c = sep := fun hc => h (by simp [hc])
    have hcs : sep ∉ cs := fun hm => h (by simp [hm])
    show pySplit sep (c :: (cs ++ sep :: r)) = (c :: cs) :: pySplit sep r
    simp only [pySplit]
    rw [if_neg hc, ih hcs]

theorem mem_pySplit_not_mem {sep : Char} {l p : List Char}
    (hp : p ∈ pySplit sep l) : sep ∉ p := by
  induction l generalizing p with
  | nil => simp [pySplit] at hp; simp [hp]
  | cons c cs ih =>
    by_cases hc : c = sep
    · simp [pySplit, hc] at hp
      rcases hp with rfl | hp
      · simp
      · exact ih hp
    · simp only [pySplit, hc, if_false] at hp
      rcases he : pySplit sep cs with _ | ⟨q, qs⟩
      · exact absurd he (pySplit_ne_nil sep cs)
      · rw [he] at hp
        simp at hp
        rcases hp with rfl | hp
        · intro hm
          rcases List.mem_cons.mp hm with rfl | hm
          · exact hc rfl
          · exact ih (he ▸ List.mem_cons_self q qs) hm
        · exact ih (he ▸ List.mem_cons.mpr (Or.inr hp))

theorem pySplit_length_ge_two {sep : Char} {l : List Char} (h : sep ∈ l) :
    2 ≤ (pySplit sep l).length := by
  induction l with
  | nil => simp at h
  | cons c cs ih =>
    by_cases hc : c = sep
    · have hlen : 1 ≤ (pySplit sep cs).length :=
        List.length_pos.mpr (pySplit_ne_nil sep cs)
      simp [pySplit, hc]
      omega
    · have hcs : sep ∈ cs := by
        rcases List.mem_cons.mp h with rfl | hm
        · exact absurd rfl hc
        · exact hm
      have := ih hcs
      simp only [pySplit, hc, if_false]
      rcases he : pySplit sep cs with _ | ⟨q, qs⟩
      · exact absurd he (pySplit_ne_nil sep cs)
      · rw [he] at this
        simpa using this

/-! ### Helper lemmas about the decimal representation -/

theorem natToCharsAux_acc (f : Nat) : ∀ (n : Nat) (acc : List Char),
    natToCharsAux f n acc = natToCharsAux f n [] ++ acc := by
  induction f with
  | zero => intro n acc; simp [natToCharsAux]
  | succ f ih =>
    intro n acc
    simp only [natToCharsAux]
    by_cases h : n < 10
    · simp [h]
    · simp only [h, if_false]
      rw [ih (n / 10) [Char.ofNat (48 + n % 10)],
          ih (n / 10) (Char.ofNat (48 + n % 10) :: acc)]
      simp

theorem natToCharsAux_fuel : ∀ (f g n : Nat) (acc : List Char), n < f → n < g →
    natToCharsAux f n acc = natToCharsAux g n acc := by
  intro f
  induction f with
  | zero => intro g n acc h; omega
  | succ f ih =>
    intro g n acc hf hg
    rcases g with _ | g
    · omega
    · simp only [natToCharsAux]
      by_cases h : n < 10
      · simp [h]
      · simp only [h, if_false]
        exact ih g (n / 10) _ (by omega) (by omega)

theorem natToChars_lt {n : Nat} (h : n < 10) :
    natToChars n = [Char.ofNat (48 + n)] := by
  simp [natToChars, natToCharsAux, h, Nat.mod_eq_of_lt h]

theorem natToChars_step {n : Nat} (h : 10 ≤ n) :
    natToChars n = natToChars (n / 10) ++ [Char.ofNat (48 + n % 10)] := by
  have h' : ¬n < 10 := by omega
  have h1 : natToChars n = natToCharsAux n (n / 10) [Char.ofNat (48 + n % 10)] := by
    simp [natToChars, natToCharsAux, h']
  rw [h1, natToCharsAux_acc,
      natToCharsAux_fuel n (n / 10 + 1) (n / 10) [] (by omega) (by omega)]
  rfl

theorem natToChars_ne_nil (n : Nat) : natToChars n ≠ [] := by
  by_cases h : n < 10
  · simp [natToChars_lt h]
  · rw [natToChars_step (by omega)]
    simp

theorem mem_natToChars (n : Nat) : ∀ c ∈ natToChars n, ∃ d, d < 10 ∧ c = Char.ofNat (48 + d) := by
  induction n using Nat.strong_induction_on with
  | _ n ih =>
    intro c hc
    by_cases h : n < 10
    · rw [natToChars_lt h] at hc
      simp at hc
      exact ⟨n, h, hc⟩
    · rw [natToChars_step (by omega)] at hc
      rcases List.mem_append.mp hc with hc | hc
      · exact ih (n / 10) (by omega) c hc
      · simp at hc
        exact ⟨n % 10, Nat.mod_lt _ (by omega), hc⟩

theorem digitChar_props {d : Nat} (h : d < 10) :
    isPyWhite (Char.ofNat (48 + d)) = false ∧ (Char.ofNat (48 + d)).isDigit = true
    ∧ (Char.ofNat (48 + d)).toNat = 48 + d
    ∧ Char.ofNat (48 + d) ≠ '.' ∧ Char.ofNat (48 + d) ≠ '+' ∧ Char.ofNat (48 + d) ≠ '-'
    ∧ Char.ofNat (48 + d) ≠ '|' ∧ Char.ofNat (48 + d) ≠ ',' ∧ Char.ofNat (48 + d) ≠ '^'
    ∧ Char.ofNat (48 + d) ≠ '~' ∧ Char.ofNat (48 + d) ≠ '*' := by
  interval_cases d <;> exact ⟨rfl, rfl, rfl, by decide, by decide, by decide, by decide,
    by decide, by decide, by decide, by decide⟩

theorem natToChars_nonwhite (n : Nat) : ∀ c ∈ natToChars n, isPyWhite c = false := by
  intro c hc
  obtain ⟨d, hd, rfl⟩ := mem_natToChars n c hc
  exact (digitChar_props hd).1

theorem natToChars_no_dot (n : Nat) : '.' ∉ natToChars n := by
  intro hc
  obtain ⟨d, hd, he⟩ := mem_natToChars n '.' hc
  exact (digitChar_props hd).2.2.2.1 he.symm

theorem digitsValNat_append_digit (xs : List Char) (c : Char) :
    digitsValNat (xs ++ [c]) = digitsValNat xs * 10 + (c.toNat - 48) := by
  simp [digitsValNat, List.foldl_append]

theorem digitsValNat_natToChars (n : Nat) : digitsValNat (natToChars n) = n := by
  induction n using Nat.strong_induction_on with
  | _ n ih =>
    by_cases h : n < 10
    · rw [natToChars_lt h]
      have h2 := (digitChar_props h).2.2.1
      simp [digitsValNat, h2]
    · rw [natToChars_step (by omega), digitsValNat_append_digit,
          ih (n / 10) (by omega), (digitChar_props (Nat.mod_lt _ (by omega))).2.2.1]
      omega

theorem pyInt_natToChars (n : Nat) : pyInt (natToChars n) = .ok (n : Int) := by
  have hstrip : pyStrip (natToChars n) = natToChars n :=
    pyStrip_all_nonwhite (natToChars_nonwhite n)
  obtain ⟨c, rest, hshape⟩ : ∃ c rest, natToChars n = c :: rest := by
    rcases he : natToChars n with _ | ⟨c, rest⟩
    · exact absurd he (natToChars_ne_nil n)
    · exact ⟨c, rest, rfl⟩
  obtain ⟨d, hd, hc⟩ := mem_natToChars n c (by rw [hshape]; simp)
  have halldig : (c :: rest).all Char.isDigit = true := by
    rw [← hshape]
    refine List.all_eq_true.mpr fun x hx => ?_
    obtain ⟨e, he, rfl⟩ := mem_natToChars n x hx
    exact (digitChar_props he).2.1
  simp only [pyInt]
  rw [hstrip, hshape]
  simp only []
  rw [if_neg (by rw [hc]; exact (digitChar_props hd).2.2.2.2.1),
      if_neg (by rw [hc]; exact (digitChar_props hd).2.2.2.2.2.1),
      if_pos halldig, ← hshape, digitsValNat_natToChars]

theorem intToChars_natCast (n : Nat) : intToChars (n : Int) = natToChars n := by
  simp [intToChars]

/-! ### Claim C1: incremental bucket aggregation -/

/-- C1: the aggregation loop of `check_packages` does not build its buckets
incrementally.  With requirements `a` (not installed) and `b` (installed,
no constraint), processing `a` produces a `missing` entry, but processing
`b` rebinds `missing_packages` to `b`'s own (empty) result, so the final
`missing` bucket is empty even though `a` has no installed version. -/
theorem c1_overwritten_buckets :
    checkLoop pypiNone instOnlyB (3, 9, 0)
        [(chars "a", none), (chars "b", none)] ([], [], [])
      = .ok ([], [], [])
    ∧ instOnlyB (chars "a") = none
    ∧ checkLoop pypiNone instOnlyB (3, 9, 0) [(chars "a", none)] ([], [], [])
      = .ok ([], [], [(chars "a", none)]) :=
  ⟨rfl, rfl, rfl⟩

/-! ### Claim C2: abort on python-runtime conflict -/

/-- C2 counterexample: when the module is imported (`isMain = false`), a
detected python-runtime conflict for `foo` (requires `>=3.12`, running
`3.9.0`) does not abort the run: `check_packages` goes on to build
`to_install = [foo]` and invokes the batch installer. -/
theorem c2_counterexample :
    check_packages pypiFoo312 instNone (3, 9, 0) (chars "proj") pipOk false
        [(chars "foo", none)] false false false true true
      = .ok (some ⟨[(chars "foo", none)], [chars "foo"],
                   [chars "Package 'foo' requires Python >=3.12, but current system has Python 3.9.0"],
                   [], [(chars "foo", none)]⟩,
             [.batchInstall [chars "foo"]]) :=
  rfl

/-- C2 (amended): when the module runs as a script (`isMain = true`), any
detected python-runtime conflict makes `check_packages` terminate with
failure immediately: `sys.exit(1)` fires, no installer invocation, no
environment provisioning, and no result tuple (so `toInstall` is never
built). -/
theorem c2_abort_when_main (pypi : List Char → Option PypiData)
    (installed : List Char → Option (List Char)) (pyVer : Nat × Nat × Nat)
    (projectName : List Char) (pipPkgOk : List Char → Bool) (reqs : List Req)
    (fr fi so sh am : Bool)
    (pcs : List (List Char)) (vcs : List (List Char × List Char × List Char))
    (miss : List Req)
    (hloop : checkLoop pypi installed pyVer reqs ([], [], []) = .ok (pcs, vcs, miss))
    (hpc : pcs ≠ []) :
    check_packages pypi installed pyVer projectName pipPkgOk true reqs fr fi so sh am
      = .ok (none, [.exitFailure]) := by
  unfold check_packages
  rw [hloop]
  simp [hpc]

/-- C2 witness: the amended theorem applied at the counterexample's input
with `isMain = true`. -/
theorem c2_abort_when_main_witness :
    check_packages pypiFoo312 instNone (3, 9, 0) (chars "proj") pipOk true
        [(chars "foo", none)] false false false true true
      = .ok (none, [.exitFailure]) :=
  c2_abort_when_main pypiFoo312 instNone (3, 9, 0) (chars "proj") pipOk
    [(chars "foo", none)] false false false true true
    [chars "Package 'foo' requires Python >=3.12, but current system has Python 3.9.0"]
    [] [(chars "foo", none)] rfl (by simp)

/-! ### Claim C3: summary-only performs no mutation -/

/-- C3: summary-only mode does not prevent environment provisioning.  With
`summary_only = true` and a version conflict on `foo` (installed `1.0`,
required `>=2.0`) under default auto mode, `check_packages` provisions a
virtual environment (which installs the whole requirement set into it)
before the `summary_only` return is ever reached. -/
theorem c3_summary_only_still_mutates :
    check_packages pypiNone instFoo10 (3, 9, 0) (chars "proj") pipOk true
        [(chars "foo", some (chars ">=2.0"))] false false true true true
      = .ok (some ⟨[(chars "foo", some (chars ">=2.0"))], [], [],
                   [(chars "foo", chars "1.0", chars ">=2.0")], []⟩,
             [.createVenv (chars "proj-env")]) :=
  rfl

/-! ### Claim C4: totality of constraint normalization -/

/-- C4: `convert_spec` is not exception-free on malformed input.  A
non-numeric component in a caret, tilde, or wildcard constraint reaches
Python's `int()` (or tuple unpacking) and raises `ValueError` instead of
returning the empty string with a diagnostic. -/
theorem c4_malformed_raises :
    convert_spec (chars "^a") = .error "ValueError"
    ∧ convert_spec (chars "~1.x") = .error "ValueError"
    ∧ convert_spec (chars "a.*") = .error "ValueError"
    ∧ convert_spec (chars "^1.2.3.4") = .error "ValueError" :=
  ⟨rfl, rfl, rfl, rfl⟩

/-! ### Helper lemmas for caret and tilde constraints over decimal texts -/

theorem pySplit_dot_three (X Y Z : Nat) :
    pySplit '.' (natToChars X ++ '.' :: natToChars Y ++ '.' :: natToChars Z)
      = [natToChars X, natToChars Y, natToChars Z] := by
  have hshape : natToChars X ++ '.' :: natToChars Y ++ '.' :: natToChars Z
      = natToChars X ++ ('.' :: (natToChars Y ++ ('.' :: natToChars Z))) := by
    simp
  rw [hshape, pySplit_append_cons (natToChars_no_dot X),
      pySplit_append_cons (natToChars_no_dot Y),
      pySplit_not_mem (natToChars_no_dot Z)]

theorem pySplit_dot_two (X Y : Nat) :
    pySplit '.' (natToChars X ++ '.' :: natToChars Y) = [natToChars X, natToChars Y] := by
  rw [pySplit_append_cons (natToChars_no_dot X), pySplit_not_mem (natToChars_no_dot Y)]

theorem mem_dotnum2 {x : Char} {X Y : Nat}
    (hx : x ∈ natToChars X ++ '.' :: natToChars Y) :
    x = '.' ∨ ∃ d, d < 10 ∧ x = Char.ofNat (48 + d) := by
  rcases List.mem_append.mp hx with hx | hx
  · exact Or.inr (mem_natToChars X x hx)
  · rcases List.mem_cons.mp hx with rfl | hx
    · exact Or.inl rfl
    · exact Or.inr (mem_natToChars Y x hx)

theorem mem_dotnum3 {x : Char} {X Y Z : Nat}
    (hx : x ∈ natToChars X ++ '.' :: natToChars Y ++ '.' :: natToChars Z) :
    x = '.' ∨ ∃ d, d < 10 ∧ x = Char.ofNat (48 + d) := by
  rcases List.mem_append.mp hx with hx | hx
  · exact mem_dotnum2 hx
  · rcases List.mem_cons.mp hx with rfl | hx
    · exact Or.inl rfl
    · exact Or.inr (mem_natToChars Z x hx)

theorem dotnum_char_props {x : Char}
    (h : x = '.' ∨ ∃ d, d < 10 ∧ x = Char.ofNat (48 + d)) :
    isPyWhite x = false ∧ x ≠ '|' ∧ x ≠ ',' := by
  rcases h with rfl | ⟨d, hd, rfl⟩
  · exact ⟨rfl, by decide, by decide⟩
  · exact ⟨(digitChar_props hd).1, (digitChar_props hd).2.2.2.2.2.2.1,
      (digitChar_props hd).2.2.2.2.2.2.2.1⟩

theorem contains_eq_false_of_not_mem {l : List Char} {c : Char} (h : c ∉ l) :
    l.contains c = false := by
  simp only [List.contains, List.elem_eq_mem]
  exact decide_eq_false h

/-- Entry of `convert_spec` into the caret branch: for a caret constraint
over a whitespace-free version text with no `|` or `,`, `convert_spec`
reduces to `convert_caret`. -/
theorem convert_spec_caret (v : List Char)
    (hnw : ∀ c ∈ v, isPyWhite c = false)
    (hbar : '|' ∉ v) (hcomma : ',' ∉ v) :
    convert_spec ('^' :: v) = convert_caret v := by
  have hstrip : pyStrip ('^' :: v) = '^' :: v := by
    refine pyStrip_all_nonwhite fun c hc => ?_
    rcases List.mem_cons.mp hc with rfl | hc
    · rfl
    · exact hnw c hc
  have hbar' : ('^' :: v).contains '|' = false :=
    contains_eq_false_of_not_mem (by
      intro hm
      rcases List.mem_cons.mp hm with hm | hm
      · exact absurd hm.symm (by decide)
      · exact hbar hm)
  have hcomma' : ('^' :: v).contains ',' = false :=
    contains_eq_false_of_not_mem (by
      intro hm
      rcases List.mem_cons.mp hm with hm | hm
      · exact absurd hm.symm (by decide)
      · exact hcomma hm)
  have hvstrip : pyStrip v = v := pyStrip_all_nonwhite hnw
  simp only [convert_spec, convert_spec_fuel, hstrip, hbar', hcomma', Bool.false_eq_true,
    if_false, List.drop_succ_cons, List.drop_zero, hvstrip]
  rw [if_pos (by simp [List.isPrefixOf])]

/-- Entry of `convert_spec` into the tilde branch. -/
theorem convert_spec_tilde (v : List Char)
    (hnw : ∀ c ∈ v, isPyWhite c = false)
    (hbar : '|' ∉ v) (hcomma : ',' ∉ v) :
    convert_spec ('~' :: v) = convert_tilde v := by
  have hstrip : pyStrip ('~' :: v) = '~' :: v := by
    refine pyStrip_all_nonwhite fun c hc => ?_
    rcases List.mem_cons.mp hc with rfl | hc
    · rfl
    · exact hnw c hc
  have hbar' : ('~' :: v).contains '|' = false :=
    contains_eq_false_of_not_mem (by
      intro hm
      rcases List.mem_cons.mp hm with hm | hm
      · exact absurd hm.symm (by decide)
      · exact hbar hm)
  have hcomma' : ('~' :: v).contains ',' = false :=
    contains_eq_false_of_not_mem (by
      intro hm
      rcases List.mem_cons.mp hm with hm | hm
      · exact absurd hm.symm (by decide)
      · exact hcomma hm)
  have hnotcaret : List.isPrefixOf ['^'] ('~' :: v) = false := by
    simp [List.isPrefixOf]
  have hvstrip : pyStrip v = v := pyStrip_all_nonwhite hnw
  simp only [convert_spec, convert_spec_fuel, hstrip, hbar', hcomma', hnotcaret,
    Bool.false_eq_true, if_false, List.drop_succ_cons, List.drop_zero, hvstrip]
  rw [if_pos (by simp [List.isPrefixOf])]

theorem convert_caret_three (X Y Z : Nat) :
    convert_caret (natToChars X ++ '.' :: natToChars Y ++ '.' :: natToChars Z)
      = .ok (chars ">=" ++ (natToChars X ++ '.' :: natToChars Y ++ '.' :: natToChars Z)
             ++ ',' :: '<' ::
             (if 0 < X then natToChars (X + 1) ++ chars ".0.0"
              else if 0 < Y then chars "0." ++ natToChars (Y + 1) ++ chars ".0"
              else chars "0.0." ++ natToChars (Z + 1))) := by
  unfold convert_caret
  rw [pySplit_dot_three]
  simp only [List.length_cons, List.length_nil, Nat.sub_self, List.replicate,
    List.append_nil, pyInt_natToChars, bind, Except.bind]
  by_cases hX : 0 < X
  · rw [if_pos (by exact_mod_cast hX), if_pos hX]
    have hc : ((X : Int) + 1) = ((X + 1 : Nat) : Int) := by push_cast; ring
    rw [hc, intToChars_natCast]
    simp
  · rw [if_neg (by exact_mod_cast hX), if_neg hX]
    by_cases hY : 0 < Y
    · rw [if_pos (by exact_mod_cast hY), if_pos hY]
      have hc : ((Y : Int) + 1) = ((Y + 1 : Nat) : Int) := by push_cast; ring
      rw [hc, intToChars_natCast]
      simp
    · rw [if_neg (by exact_mod_cast hY), if_neg hY]
      have hc : ((Z : Int) + 1) = ((Z + 1 : Nat) : Int) := by push_cast; ring
      rw [hc, intToChars_natCast]
      simp

theorem convert_caret_two (X Y : Nat) :
    convert_caret (natToChars X ++ '.' :: natToChars Y)
      = .ok (chars ">=" ++ (natToChars X ++ '.' :: natToChars Y)
             ++ ',' :: '<' ::
             (if 0 < X then natToChars (X + 1) ++ chars ".0.0"
              else if 0 < Y then chars "0." ++ natToChars (Y + 1) ++ chars ".0"
              else chars "0.0.1")) := by
  unfold convert_caret
  rw [pySplit_dot_two]
  have h0 : (['0'] : List Char) = natToChars 0 := rfl
  simp only [List.length_cons, List.length_nil, List.replicate, List.append_nil,
    List.cons_append, List.nil_append, h0, pyInt_natToChars, bind, Except.bind]
  by_cases hX : 0 < X
  · rw [if_pos (by exact_mod_cast hX), if_pos hX]
    have hc : ((X : Int) + 1) = ((X + 1 : Nat) : Int) := by push_cast; ring
    rw [hc, intToChars_natCast]
    simp
  · rw [if_neg (by exact_mod_cast hX), if_neg hX]
    by_cases hY : 0 < Y
    · rw [if_pos (by exact_mod_cast hY), if_pos hY]
      have hc : ((Y : Int) + 1) = ((Y + 1 : Nat) : Int) := by push_cast; ring
      rw [hc, intToChars_natCast]
      simp
    · rw [if_neg (by exact_mod_cast hY), if_neg hY]
      simp
      decide

theorem convert_tilde_three (X Y Z : Nat) :
    convert_tilde (natToChars X ++ '.' :: natToChars Y ++ '.' :: natToChars Z)
      = .ok (chars ">=" ++ (natToChars X ++ '.' :: natToChars Y ++ '.' :: natToChars Z)
             ++ ',' :: '<' :: (natToChars X ++ '.' :: natToChars (Y + 1) ++ chars ".0")) := by
  unfold convert_tilde
  rw [pySplit_dot_three]
  simp only [List.length_cons, List.length_nil, Nat.sub_self, List.replicate,
    List.append_nil, pyInt_natToChars, bind, Except.bind]
  have hc : ((Y : Int) + 1) = ((Y + 1 : Nat) : Int) := by push_cast; ring
  rw [hc, intToChars_natCast, intToChars_natCast]
  simp

theorem convert_tilde_two (X Y : Nat) :
    convert_tilde (natToChars X ++ '.' :: natToChars Y)
      = .ok (chars ">=" ++ (natToChars X ++ '.' :: natToChars Y)
             ++ ',' :: '<' :: (natToChars X ++ '.' :: natToChars (Y + 1) ++ chars ".0")) := by
  unfold convert_tilde
  rw [pySplit_dot_two]
  have h0 : (['0'] : List Char) = natToChars 0 := rfl
  simp only [List.length_cons, List.length_nil, List.replicate, List.append_nil,
    List.cons_append, List.nil_append, h0, pyInt_natToChars, bind, Except.bind]
  have hc : ((Y : Int) + 1) = ((Y + 1 : Nat) : Int) := by push_cast; ring
  rw [hc, intToChars_natCast, intToChars_natCast]
  simp

theorem convert_caret_one (X : Nat) :
    convert_caret (natToChars X)
      = .ok (chars ">=" ++ natToChars X ++ ',' :: '<' ::
             (if 0 < X then natToChars (X + 1) ++ chars ".0.0" else chars "0.0.1")) := by
  unfold convert_caret
  rw [pySplit_not_mem (natToChars_no_dot X)]
  have h0 : (['0'] : List Char) = natToChars 0 := rfl
  simp only [List.length_cons, List.length_nil, List.replicate, List.append_nil,
    List.cons_append, List.nil_append, h0, pyInt_natToChars, bind, Except.bind]
  by_cases hX : 0 < X
  · rw [if_pos (by exact_mod_cast hX), if_pos hX]
    have hc : ((X : Int) + 1) = ((X + 1 : Nat) : Int) := by push_cast; ring
    rw [hc, intToChars_natCast]
    simp
  · rw [if_neg (by exact_mod_cast hX), if_neg hX]
    simp
    decide

theorem convert_tilde_one (X : Nat) :
    convert_tilde (natToChars X)
      = .ok (chars ">=" ++ natToChars X ++ ',' :: '<' ::
             (natToChars X ++ chars ".1.0")) := by
  unfold convert_tilde
  rw [pySplit_not_mem (natToChars_no_dot X)]
  have h0 : (['0'] : List Char) = natToChars 0 := rfl
  simp only [List.length_cons, List.length_nil, List.replicate, List.append_nil,
    List.cons_append, List.nil_append, h0, pyInt_natToChars, bind, Except.bind]
  have hc : ((0 : Nat) : Int) + 1 = ((1 : Nat) : Int) := by norm_num
  rw [hc, intToChars_natCast, intToChars_natCast]
  simp
  decide

/-! ### Claim C6: caret normalization -/

/-- C6 counterexample: for the two-component caret `^1.2` the claim requires
lower bound `>=1.2.0`; the code interpolates the original version text, so
the result is `>=1.2,<2.0.0`. -/
theorem c6_counterexample :
    convert_spec (chars "^1.2") = .ok (chars ">=1.2,<2.0.0")
    ∧ chars ">=1.2,<2.0.0" ≠ chars ">=1.2.0,<2.0.0" :=
  ⟨rfl, by decide⟩

/-- C6 (amended): for every well-formed caret constraint with numeric
components, missing components default to 0 for computing the exclusive
upper bound, which increments the highest-order nonzero component and
zeroes the lower ones; the lower bound reuses the original version text
without padding.  So `^X.Y.Z` gives `>=X.Y.Z,<UPPER`, while `^X.Y` gives
`>=X.Y,<UPPER` and `^X` gives `>=X,<UPPER` (not `>=X.Y.0,...`). -/
theorem c6_caret_normalization (X Y Z : Nat) :
    convert_spec ('^' :: (natToChars X ++ '.' :: natToChars Y ++ '.' :: natToChars Z))
      = .ok (chars ">=" ++ (natToChars X ++ '.' :: natToChars Y ++ '.' :: natToChars Z)
             ++ ',' :: '<' ::
             (if 0 < X then natToChars (X + 1) ++ chars ".0.0"
              else if 0 < Y then chars "0." ++ natToChars (Y + 1) ++ chars ".0"
              else chars "0.0." ++ natToChars (Z + 1)))
    ∧ convert_spec ('^' :: (natToChars X ++ '.' :: natToChars Y))
      = .ok (chars ">=" ++ (natToChars X ++ '.' :: natToChars Y)
             ++ ',' :: '<' ::
             (if 0 < X then natToChars (X + 1) ++ chars ".0.0"
              else if 0 < Y then chars "0." ++ natToChars (Y + 1) ++ chars ".0"
              else chars "0.0.1"))
    ∧ convert_spec ('^' :: natToChars X)
      = .ok (chars ">=" ++ natToChars X ++ ',' :: '<' ::
             (if 0 < X then natToChars (X + 1) ++ chars ".0.0" else chars "0.0.1")) := by
  refine ⟨?_, ?_, ?_⟩
  · have h3 : ∀ c ∈ natToChars X ++ '.' :: natToChars Y ++ '.' :: natToChars Z,
        isPyWhite c = false ∧ c ≠ '|' ∧ c ≠ ',' :=
      fun c hc => dotnum_char_props (mem_dotnum3 hc)
    exact (convert_spec_caret _ (fun c hc => (h3 c hc).1)
      (fun hm => (h3 _ hm).2.1 rfl) (fun hm => (h3 _ hm).2.2 rfl)).trans
      (convert_caret_three X Y Z)
  · have h2 : ∀ c ∈ natToChars X ++ '.' :: natToChars Y,
        isPyWhite c = false ∧ c ≠ '|' ∧ c ≠ ',' :=
      fun c hc => dotnum_char_props (mem_dotnum2 hc)
    exact (convert_spec_caret _ (fun c hc => (h2 c hc).1)
      (fun hm => (h2 _ hm).2.1 rfl) (fun hm => (h2 _ hm).2.2 rfl)).trans
      (convert_caret_two X Y)
  · have h1 : ∀ c ∈ natToChars X, isPyWhite c = false ∧ c ≠ '|' ∧ c ≠ ',' :=
      fun c hc => dotnum_char_props (Or.inr (mem_natToChars X c hc))
    exact (convert_spec_caret _ (fun c hc => (h1 c hc).1)
      (fun hm => (h1 _ hm).2.1 rfl) (fun hm => (h1 _ hm).2.2 rfl)).trans
      (convert_caret_one X)

/-! ### Claim C7: tilde normalization -/

/-- C7 counterexample: for `~1.2` the claim requires `>=1.2.0,<1.3.0` and
for `~1` it requires `>=1.0.0,<1.1.0`; the code interpolates the original
version text into the lower bound, yielding `>=1.2,<1.3.0` and
`>=1,<1.1.0`. -/
theorem c7_counterexample :
    convert_spec (chars "~1.2") = .ok (chars ">=1.2,<1.3.0")
    ∧ chars ">=1.2,<1.3.0" ≠ chars ">=1.2.0,<1.3.0"
    ∧ convert_spec (chars "~1") = .ok (chars ">=1,<1.1.0")
    ∧ chars ">=1,<1.1.0" ≠ chars ">=1.0.0,<1.1.0" :=
  ⟨rfl, by decide, rfl, by decide⟩

/-- C7 (amended): for every well-formed tilde constraint with numeric
components, missing components default to 0 for the upper bound, which
always increments minor and zeroes patch: `~X.Y.Z` and `~X.Y` give
`>=<original text>,<X.(Y+1).0`, and `~X` gives `>=X,<X.1.0`; the lower
bound reuses the original version text without padding. -/
theorem c7_tilde_normalization (X Y Z : Nat) :
    convert_spec ('~' :: (natToChars X ++ '.' :: natToChars Y ++ '.' :: natToChars Z))
      = .ok (chars ">=" ++ (natToChars X ++ '.' :: natToChars Y ++ '.' :: natToChars Z)
             ++ ',' :: '<' :: (natToChars X ++ '.' :: natToChars (Y + 1) ++ chars ".0"))
    ∧ convert_spec ('~' :: (natToChars X ++ '.' :: natToChars Y))
      = .ok (chars ">=" ++ (natToChars X ++ '.' :: natToChars Y)
             ++ ',' :: '<' :: (natToChars X ++ '.' :: natToChars (Y + 1) ++ chars ".0"))
    ∧ convert_spec ('~' :: natToChars X)
      = .ok (chars ">=" ++ natToChars X ++ ',' :: '<' :: (natToChars X ++ chars ".1.0")) := by
  refine ⟨?_, ?_, ?_⟩
  · have h3 : ∀ c ∈ natToChars X ++ '.' :: natToChars Y ++ '.' :: natToChars Z,
        isPyWhite c = false ∧ c ≠ '|' ∧ c ≠ ',' :=
      fun c hc => dotnum_char_props (mem_dotnum3 hc)
    exact (convert_spec_tilde _ (fun c hc => (h3 c hc).1)
      (fun hm => (h3 _ hm).2.1 rfl) (fun hm => (h3 _ hm).2.2 rfl)).trans
      (convert_tilde_three X Y Z)
  · have h2 : ∀ c ∈ natToChars X ++ '.' :: natToChars Y,
        isPyWhite c = false ∧ c ≠ '|' ∧ c ≠ ',' :=
      fun c hc => dotnum_char_props (mem_dotnum2 hc)
    exact (convert_spec_tilde _ (fun c hc => (h2 c hc).1)
      (fun hm => (h2 _ hm).2.1 rfl) (fun hm => (h2 _ hm).2.2 rfl)).trans
      (convert_tilde_two X Y)
  · have h1 : ∀ c ∈ natToChars X, isPyWhite c = false ∧ c ≠ '|' ∧ c ≠ ',' :=
      fun c hc => dotnum_char_props (Or.inr (mem_natToChars X c hc))
    exact (convert_spec_tilde _ (fun c hc => (h1 c hc).1)
      (fun hm => (h1 _ hm).2.1 rfl) (fun hm => (h1 _ hm).2.2 rfl)).trans
      (convert_tilde_one X)

/-! ### Claim C5: classification decision order -/

/-- C5 counterexample: the constraint `>=1.0,==1.5` is an intersection with
an `==` member, so the claim requires it to be decided by whole-constraint
satisfaction (`OutOfRange` for installed `1.0`); the code's `"==" in spec`
substring test routes it to the exact-match branch instead, producing
`Mismatch`. -/
theorem c5_counterexample :
    classifyRow instFoo10 (chars "foo") (some (chars ">=1.0,==1.5"))
      = .ok (.mismatch, none)
    ∧ RowStatus.mismatch ≠ RowStatus.outOfRange :=
  ⟨rfl, by decide⟩

/-- C5 (amended): the classification order of the second `check_packages`
loop.  No installed version gives `NotInstalled` (and queues the package
for install); an absent or empty constraint gives `NoConstraint`; a
nonempty constraint is always parsed as a whole `SpecifierSet` next
(pipr.py:729), so an invalid constraint text raises `InvalidSpecifier`
even when it contains `==`; a valid constraint containing `==` anywhere —
a pure pin or an intersection with an `==` member — is decided by
semantic-version equality against the text after the first `==`, giving
`ExactMatch` or `Mismatch`; only a valid constraint without `==` is
decided by whole-constraint satisfaction, giving `Satisfied` or
`OutOfRange`.  The last conjunct shows the equality is semantic, not
textual: installed `1.5.0` exactly matches `==1.5`. -/
theorem c5_classification (installed : List Char → Option (List Char))
    (pkg : List Char) (spec : Option (List Char)) :
    (installed pkg = none →
      classifyRow installed pkg spec = .ok (.notInstalled, some (pkg ++ spec.getD [])))
    ∧ (∀ inst iv, installed pkg = some inst → parseVersion inst = some iv →
        ((spec = none ∨ spec = some []) →
          classifyRow installed pkg spec = .ok (.noConstraint, none))
        ∧ (∀ sp, spec = some sp → sp ≠ [] → parseSpecSet sp = none →
            classifyRow installed pkg spec = .error "InvalidSpecifier")
        ∧ (∀ sp ss, spec = some sp → parseSpecSet sp = some ss →
            containsSeq (chars "==") sp = true →
            ∀ rv, parseVersion ((pySplitSeq (chars "==") sp).getD 1 []) = some rv →
              classifyRow installed pkg spec
                = .ok (if verEq iv rv then .exactMatch else .mismatch, none))
        ∧ (∀ sp ss, spec = some sp → sp ≠ [] → containsSeq (chars "==") sp = false →
            parseSpecSet sp = some ss →
              classifyRow installed pkg spec
                = .ok (if verInSpecSet iv ss then .satisfied else .outOfRange, none)))
    ∧ classifyRow (fun _ => some (chars "1.5.0")) (chars "p") (some (chars "==1.5"))
        = .ok (.exactMatch, none) := by
  refine ⟨fun h => by simp [classifyRow, h], fun inst iv hinst hiv => ⟨?_, ?_, ?_, ?_⟩, rfl⟩
  · rintro (rfl | rfl) <;>
      simp [classifyRow, hinst, hiv, liftO, bind, Except.bind]
  · rintro sp rfl hne hnone
    simp [classifyRow, hinst, hiv, liftO, hnone, hne, bind, Except.bind]
  · rintro sp ss rfl hss hsub rv hrv
    have hne : sp ≠ [] := by rintro rfl; simp [containsSeq, chars] at hsub
    simp only [List.getD] at hrv
    simp only [classifyRow, hinst, hiv, liftO, hss, hsub, hrv, hne, bind, Except.bind,
      if_true, if_false, ite_false, ite_true, List.getD]
    rcases h : verEq iv rv <;> simp [h, hne]
  · rintro sp ss rfl hne hsub hss
    simp only [classifyRow, hinst, hiv, liftO, hsub, hss, bind, Except.bind, List.getD]
    rcases h : verInSpecSet iv ss <;> simp [h, hne, hsub]

/-- C5 witness: the amended exact-branch rule applied to the
counterexample's intersection constraint, which is a valid specifier set. -/
theorem c5_classification_witness :
    classifyRow instFoo10 (chars "foo") (some (chars ">=1.0,==1.5"))
      = .ok (.mismatch, none) := by
  have h := ((c5_classification instFoo10 (chars "foo")
      (some (chars ">=1.0,==1.5"))).2.1 (chars "1.0") [1, 0] rfl rfl).2.2.1
      (chars ">=1.0,==1.5") [⟨SpecOp.ge, [1, 0]⟩, ⟨SpecOp.eq, [1, 5]⟩]
      rfl rfl rfl [1, 5] rfl
  simpa [show verEq [1, 0] [1, 5] = false from rfl] using h

/-! ### Claim C8: installer retry policy -/

/-- C8 counterexample: with retry-forced mode set, a second failure is not
retried in an unbounded loop — the function prompts and gives up on a
declined prompt after exactly one automatic retry (first conjunct, two
invocations, one prompt, result failure); without retry-forced mode the run
does not give up after one failed retry — it keeps prompting, and here
succeeds on a third invocation after two accepted prompts (second
conjunct). -/
theorem c8_counterexample :
    run_pip_install_from_file true [false, false] [false] = some (false, 2, 1)
    ∧ run_pip_install_from_file false [false, false, true] [true, true]
        = some (true, 3, 2) :=
  ⟨rfl, rfl⟩

/-- Failure of the batch installer model always goes through a declined
prompt: helper for the amended claim C8, generalized over the counters. -/
theorem runPipGo_false_mem :
    ∀ (rs answers : List Bool) (fr : Bool) (i0 p0 i p : Nat),
      runPipGo fr rs answers i0 p0 = some (false, i, p) → false ∈ answers := by
  intro rs
  induction rs with
  | nil => intro answers fr i0 p0 i p h; simp [runPipGo] at h
  | cons r rs ih =>
    intro answers fr i0 p0 i p h
    rcases r with _ | _
    · rcases fr with _ | _
      · rcases answers with _ | ⟨a, rest⟩
        · simp [runPipGo] at h
        · rcases a with _ | _
          · simp
          · simp only [runPipGo, if_false, if_true, Bool.false_eq_true] at h
            simp only [List.mem_cons]
            exact Or.inr (ih rest false (i0 + 1) (p0 + 1) i p h)
      · simp only [runPipGo, if_false, if_true, Bool.false_eq_true] at h
        exact ih answers false (i0 + 1) p0 i p h
    · simp [runPipGo] at h

/-- C8 (amended): on batch-installer failure, retry-forced mode performs
exactly one automatic retry and then falls back to interactive prompting
(first conjunct: the forced call on a failure equals the non-forced worker
one invocation in); in either mode the run reports failure only after the
user declines a retry prompt, and an accepted prompt always retries again
(second conjunct: a `false` result implies a declined answer was
consumed). -/
theorem c8_retry_policy :
    (∀ (rs answers : List Bool),
        run_pip_install_from_file true (false :: rs) answers
          = runPipGo false rs answers 1 0)
    ∧ (∀ (fr : Bool) (rs answers : List Bool) (i p : Nat),
        run_pip_install_from_file fr rs answers = some (false, i, p) →
          false ∈ answers) :=
  ⟨fun _ _ => rfl,
   fun fr rs answers i p h => runPipGo_false_mem rs answers fr 0 0 i p h⟩

/-- C8 witness: the declined-prompt rule applied to a concrete failing
run. -/
theorem c8_retry_policy_witness :
    run_pip_install_from_file false [false] [false] = some (false, 1, 1)
    ∧ false ∈ [false] :=
  ⟨rfl, c8_retry_policy.2 false [false] [false] 1 1 rfl⟩

/-! ### Claim C9: environment-marker handling -/

/-- C9 counterexample: the marker `sys_platform != "win32"` is not one of
the two recognized equality forms, so the claim requires the line to be
kept; the parser's substring tests (`"sys_platform" in cond`, `"win32" in
cond`) nevertheless drop it on a non-Windows platform. -/
theorem nameChar_not_white {c : Char} (h : isNameChar c = true) : isPyWhite c = false := by
  rcases hb : isPyWhite c
  · rfl
  · exfalso
    have hc : c = ' ' ∨ c = '\t' ∨ c = '\n' ∨ c = '\x0d' ∨ c = '\x0b' ∨ c = '\x0c' := by
      simpa [isPyWhite, or_assoc] using hb
    rcases hc with rfl | rfl | rfl | rfl | rfl | rfl <;> simp [isNameChar] at h

theorem nameChar_ne_semi {c : Char} (h : isNameChar c = true) : c ≠ ';' := by
  rintro rfl; simp [isNameChar] at h

theorem nameChar_ne_hash {c : Char} (h : isNameChar c = true) : c ≠ '#' := by
  rintro rfl; simp [isNameChar] at h

theorem takeWhile_all {p : Char → Bool} :
    ∀ {l : List Char}, (∀ c ∈ l, p c = true) → l.takeWhile p = l := by
  intro l
  induction l with
  | nil => intro _; rfl
  | cons c cs ih =>
    intro h
    rw [List.takeWhile_cons_of_pos (h c (by simp)), ih fun x hx => h x (by simp [hx])]

/-- C9 (amended): marker handling of `parse_requirements` is by substring.
For a line `name ; cond` (well-formed name, stripped nonempty marker), the
requirement is dropped exactly when the marker contains `sys_platform`
together with `win32` on a non-Windows platform or `linux` on a non-Linux
platform; every other marker — equality, inequality or anything else —
leaves the requirement `(name, None)` kept. -/
theorem c9_marker_semantics (sysName name cond : List Char)
    (hn : name ≠ []) (hall : ∀ c ∈ name, isNameChar c = true)
    (hcfix : pyStrip cond = cond) (hcne : cond ≠ []) :
    parse_requirements sysName [name ++ chars " ; " ++ cond]
      = if containsSeq (chars "sys_platform") cond &&
           ((containsSeq (chars "win32") cond && sysName ≠ chars "windows") ||
            (containsSeq (chars "linux") cond && sysName ≠ chars "linux")) then []
        else [(name, none)] := by
  obtain ⟨h0, name', rfl⟩ : ∃ c rest, name = c :: rest := by
    rcases name with _ | ⟨c, rest⟩
    · exact absurd rfl hn
    · exact ⟨c, rest, rfl⟩
  set name := h0 :: name' with hname
  have hline : name ++ chars " ; " ++ cond = name ++ (chars " ; " ++ cond) := by
    simp [List.append_assoc]
  have hheadNW : isPyWhite h0 = false := nameChar_not_white (hall h0 (by simp [hname]))
  -- the whole line is already stripped
  have hstrip : pyStrip (name ++ chars " ; " ++ cond) = name ++ chars " ; " ++ cond := by
    have hL : stripLeft (name ++ chars " ; " ++ cond) = name ++ chars " ; " ++ cond := by
      rw [hline]
      exact stripLeft_fixed_append (stripLeft_cons_nonwhite hheadNW) hn _
    have hR : stripRight (name ++ chars " ; " ++ cond) = name ++ chars " ; " ++ cond := by
      have := stripRight_fixed_append (name ++ chars " ; ")
        (pyStrip_fixed_parts hcfix).2 hcne
      simpa [List.append_assoc] using this
    exact pyStrip_of_parts hL hR
  have hsemi : (name ++ chars " ; " ++ cond).contains ';' = true := by
    have hm : ';' ∈ name ++ chars " ; " ++ cond := by
      rw [hline]
      refine List.mem_append.mpr (Or.inr ?_)
      simp [chars]
    simp only [List.contains, List.elem_eq_mem]
    exact decide_eq_true hm
  have htake : (name ++ chars " ; " ++ cond).takeWhile (· ≠ ';') = name ++ [' '] := by
    have hsemiNotName : ∀ a ∈ name, ((· ≠ ';') a : Bool) = true := by
      intro a ha
      simpa using nameChar_ne_semi (hall a ha)
    rw [hline, List.takeWhile_append_of_pos hsemiNotName]
    rfl
  have hpkg : pyStrip ((name ++ chars " ; " ++ cond).takeWhile (· ≠ ';')) = name := by
    rw [htake, pyStrip_append_white (show isPyWhite ' ' = true from rfl)]
    exact pyStrip_all_nonwhite fun c hc => nameChar_not_white (hall c hc)
  have hcond : pyStrip ((name ++ chars " ; " ++ cond).drop
      (((name ++ chars " ; " ++ cond).takeWhile (· ≠ ';')).length + 1)) = cond := by
    have hdrop : (name ++ chars " ; " ++ cond).drop
        (((name ++ chars " ; " ++ cond).takeWhile (· ≠ ';')).length + 1) = ' ' :: cond := by
      rw [htake]
      have hshape : name ++ chars " ; " ++ cond = (name ++ [' ', ';']) ++ (' ' :: cond) := by
        simp [chars, List.append_assoc]
      rw [hshape]
      refine List.drop_left' ?_
      simp
    rw [hdrop, pyStrip_cons_white (show isPyWhite ' ' = true from rfl), hcfix]
  have hmarker : dropByMarker sysName (name ++ chars " ; " ++ cond)
      = if containsSeq (chars "sys_platform") cond &&
           ((containsSeq (chars "win32") cond && sysName ≠ chars "windows") ||
            (containsSeq (chars "linux") cond && sysName ≠ chars "linux")) then none
        else some name := by
    simp only [dropByMarker, hcond, hpkg]
    rw [if_pos hsemi]
  have hfirst : (decide (name ++ chars " ; " ++ cond = [])
      || List.isPrefixOf ['#'] (name ++ chars " ; " ++ cond)) = false := by
    have h1 : ¬(name ++ chars " ; " ++ cond = []) := by simp [hname]
    have h2 : List.isPrefixOf ['#'] (name ++ chars " ; " ++ cond) = false := by
      have hne : ('#' == h0) = false := by
        have hh := nameChar_ne_hash (hall h0 (by simp [hname]))
        simp [beq_iff_eq]
        exact fun hc => hh hc.symm
      have hshape : name ++ chars " ; " ++ cond = h0 :: (name' ++ (chars " ; " ++ cond)) := by
        simp [hname]
      rw [hshape]
      simp [List.isPrefixOf, hne]
    simp [h1]
    simpa using h2
  have htakeName : name.takeWhile isNameChar = name := takeWhile_all hall
  simp only [parse_requirements, parseReqLine, hstrip, hfirst, Bool.false_eq_true,
    if_false, hmarker]
  rcases hB : (containsSeq (chars "sys_platform") cond &&
      ((containsSeq (chars "win32") cond && sysName ≠ chars "windows") ||
       (containsSeq (chars "linux") cond && sysName ≠ chars "linux"))) with _ | _
  · simp only [Bool.false_eq_true, if_false]
    simp only [htakeName]
    rw [if_neg (by simp [hname])]
    simp [parse_requirements, List.drop_length, pyStrip, stripLeft, stripRight]
  · simp [parse_requirements]

/-- C9 witness: the amended rule applied to the recognized marker
`sys_platform == "win32"` on Linux, which drops the line. -/
theorem c9_marker_semantics_witness :
    parse_requirements (chars "linux")
        [chars "foo" ++ chars " ; " ++ chars "sys_platform == \"win32\""] = [] := by
  have h := c9_marker_semantics (chars "linux") (chars "foo")
      (chars "sys_platform == \"win32\"") (by decide) (by decide) (by decide) (by decide)
  rw [h]
  decide

theorem c9_counterexample :
    parse_requirements (chars "linux") [chars "foo ; sys_platform != \"win32\""] = []
    ∧ chars "sys_platform != \"win32\"" ≠ chars "sys_platform == \"win32\""
    ∧ chars "sys_platform != \"win32\"" ≠ chars "sys_platform == \"linux\"" :=
  ⟨rfl, by decide, by decide⟩

/-! ### Helper lemmas towards idempotence on canonical strings (C10) -/

theorem mem_pyStrip {x : Char} {l : List Char} (h : x ∈ pyStrip l) : x ∈ l := by
  have h1 : pyStrip l <+: stripLeft l := List.rdropWhile_prefix _ _
  have h2 : stripLeft l <:+ l := List.dropWhile_suffix _
  exact h2.subset (h1.subset h)

theorem mem_of_mem_pySplit {sep : Char} {l p : List Char} {x : Char}
    (hp : p ∈ pySplit sep l) (hx : x ∈ p) : x ∈ l := by
  induction l generalizing p with
  | nil =>
    simp [pySplit] at hp
    subst hp
    simp at hx
  | cons c cs ih =>
    by_cases hc : c = sep
    · simp [pySplit, hc] at hp
      rcases hp with rfl | hp
      · simp at hx
      · exact List.mem_cons.mpr (Or.inr (ih hp hx))
    · simp only [pySplit, hc, if_false] at hp
      rcases he : pySplit sep cs with _ | ⟨q, qs⟩
      · exact absurd he (pySplit_ne_nil sep cs)
      · rw [he] at hp
        simp at hp
        rcases hp with rfl | hp
        · rcases List.mem_cons.mp hx with rfl | hx
          · simp
          · exact List.mem_cons.mpr (Or.inr (ih (he ▸ List.mem_cons_self q qs) hx))
        · exact List.mem_cons.mpr
            (Or.inr (ih (he ▸ List.mem_cons.mpr (Or.inr hp)) hx))

theorem collectE_map_ok (l : List (List Char)) :
    collectE (l.map .ok) = .ok l := by
  induction l with
  | nil => rfl
  | cons x xs ih => simp [collectE, ih, Except.map]

theorem convert_fuel_strip_congr {a b : List Char} (f : Nat)
    (h : pyStrip a = pyStrip b) :
    convert_spec_fuel (f + 1) a = convert_spec_fuel (f + 1) b := by
  simp only [convert_spec_fuel, h]

theorem joinSep_ne_nil {sep : List Char} {ps : List (List Char)}
    (hps : ps ≠ []) (hel : ∀ x ∈ ps, x ≠ []) : joinSep sep ps ≠ [] := by
  rcases ps with _ | ⟨a, rest⟩
  · exact absurd rfl hps
  · rcases rest with _ | ⟨b, t⟩
    · exact hel a (by simp)
    · simp only [joinSep]
      have := hel a (by simp)
      simp [this]

theorem pySplit_joinSep {sep : Char} {ps : List (List Char)}
    (hps : ps ≠ []) (hmem : ∀ x ∈ ps, sep ∉ x) :
    pySplit sep (joinSep [sep] ps) = ps := by
  induction ps with
  | nil => exact absurd rfl hps
  | cons a rest ih =>
    rcases rest with _ | ⟨b, t⟩
    · simp only [joinSep]
      exact pySplit_not_mem (hmem a (by simp))
    · have hshape : joinSep [sep] (a :: b :: t) = a ++ sep :: joinSep [sep] (b :: t) := by
        simp [joinSep]
      rw [hshape, pySplit_append_cons (hmem a (by simp))]
      rw [ih (by simp) fun x hx => hmem x (by simp [hx])]

theorem mem_joinSep {sep : List Char} {ps : List (List Char)} {x : Char}
    (h : x ∈ joinSep sep ps) : x ∈ sep ∨ ∃ p ∈ ps, x ∈ p := by
  induction ps with
  | nil => simp [joinSep] at h
  | cons a rest ih =>
    rcases rest with _ | ⟨b, t⟩
    · exact Or.inr ⟨a, by simp, by simpa [joinSep] using h⟩
    · simp only [joinSep] at h
      rcases List.mem_append.mp h with h | h
      · rcases List.mem_append.mp h with h | h
        · exact Or.inr ⟨a, by simp, h⟩
        · exact Or.inl h
      · rcases ih h with h | ⟨p, hp, hxp⟩
        · exact Or.inl h
        · exact Or.inr ⟨p, by simp [hp], hxp⟩

theorem pyStrip_joinSep_fixed {sep : List Char} {ps : List (List Char)}
    (hps : ps ≠ []) (hel : ∀ x ∈ ps, x ≠ [] ∧ pyStrip x = x) :
    pyStrip (joinSep sep ps) = joinSep sep ps := by
  induction ps with
  | nil => exact absurd rfl hps
  | cons a rest ih =>
    rcases rest with _ | ⟨b, t⟩
    · simpa [joinSep] using (hel a (by simp)).2
    · have hshape : joinSep sep (a :: b :: t) = a ++ (sep ++ joinSep sep (b :: t)) := by
        simp [joinSep]
      have ha := hel a (by simp)
      have hrest : pyStrip (joinSep sep (b :: t)) = joinSep sep (b :: t) :=
        ih (by simp) fun x hx => hel x (by simp [hx])
      have hrestne : joinSep sep (b :: t) ≠ [] :=
        joinSep_ne_nil (by simp) fun x hx => (hel x (by simp [hx])).1
      rw [hshape]
      refine pyStrip_of_parts ?_ ?_
      · exact stripLeft_fixed_append (pyStrip_fixed_parts ha.2).1 ha.1 _
      · have h2 := stripRight_fixed_append (a ++ sep) (pyStrip_fixed_parts hrest).2 hrestne
        simpa [List.append_assoc] using h2

theorem isPrefixOf_one_shape {a : Char} {l : List Char}
    (h : List.isPrefixOf [a] l = true) : ∃ r, l = a :: r := by
  rcases l with _ | ⟨c, r⟩
  · simp [List.isPrefixOf] at h
  · simp [List.isPrefixOf] at h
    exact ⟨r, by rw [h]⟩

theorem isPrefixOf_two_shape {a b : Char} {l : List Char}
    (h : List.isPrefixOf [a, b] l = true) : ∃ r, l = a :: b :: r := by
  rcases l with _ | ⟨c, r⟩
  · simp [List.isPrefixOf] at h
  · rcases r with _ | ⟨d, r⟩
    · simp [List.isPrefixOf] at h
    · simp [List.isPrefixOf] at h
      exact ⟨r, by rw [h.1, h.2]⟩

theorem rangeOp_shapes {t : List Char} (h : isRangeOpStart t = true) :
    ∃ c r, t = c :: r ∧ (c = '>' ∨ c = '<' ∨ c = '=') := by
  simp only [isRangeOpStart, Bool.or_eq_true] at h
  rcases h with ((((h | h) | h) | h) | h)
  · obtain ⟨r, rfl⟩ := isPrefixOf_two_shape h
    exact ⟨'>', _, rfl, Or.inl rfl⟩
  · obtain ⟨r, rfl⟩ := isPrefixOf_two_shape h
    exact ⟨'<', _, rfl, Or.inr (Or.inl rfl)⟩
  · obtain ⟨r, rfl⟩ := isPrefixOf_one_shape h
    exact ⟨'<', _, rfl, Or.inr (Or.inl rfl)⟩
  · obtain ⟨r, rfl⟩ := isPrefixOf_one_shape h
    exact ⟨'>', _, rfl, Or.inl rfl⟩
  · obtain ⟨r, rfl⟩ := isPrefixOf_two_shape h
    exact ⟨'=', _, rfl, Or.inr (Or.inr rfl)⟩

theorem rangeOp_not_caret_tilde {t : List Char} (h : isRangeOpStart t = true) :
    List.isPrefixOf ['^'] t = false ∧ List.isPrefixOf ['~'] t = false := by
  obtain ⟨c, r, rfl, hc⟩ := rangeOp_shapes h
  rcases hc with rfl | rfl | rfl <;> exact ⟨by simp [List.isPrefixOf], by simp [List.isPrefixOf]⟩

theorem rangeOp_filter {t : List Char} (h : isRangeOpStart t = true) :
    isRangeOpStart (t.filter (fun c => c ≠ ' ')) = true := by
  simp only [isRangeOpStart, Bool.or_eq_true] at h ⊢
  rcases h with ((((h | h) | h) | h) | h)
  · obtain ⟨r, rfl⟩ := isPrefixOf_two_shape h
    refine Or.inl (Or.inl (Or.inl (Or.inl ?_)))
    simp [List.filter, List.isPrefixOf]
  · obtain ⟨r, rfl⟩ := isPrefixOf_two_shape h
    refine Or.inl (Or.inl (Or.inl (Or.inr ?_)))
    simp [List.filter, List.isPrefixOf]
  · obtain ⟨r, rfl⟩ := isPrefixOf_one_shape h
    refine Or.inl (Or.inl (Or.inr ?_))
    simp [List.filter, List.isPrefixOf]
  · obtain ⟨r, rfl⟩ := isPrefixOf_one_shape h
    refine Or.inl (Or.inr ?_)
    simp [List.filter, List.isPrefixOf]
  · obtain ⟨r, rfl⟩ := isPrefixOf_two_shape h
    refine Or.inr ?_
    simp [List.filter, List.isPrefixOf]

theorem pyStrip_idem (l : List Char) : pyStrip (pyStrip l) = pyStrip l := by
  refine pyStrip_of_parts ?_ ?_
  · rcases hm : pyStrip l with _ | ⟨c, m⟩
    · rfl
    · have hpre : pyStrip l <+: stripLeft l := List.rdropWhile_prefix _ _
      rw [hm] at hpre
      obtain ⟨s, hs⟩ := hpre
      have hpc : isPyWhite c = false := by
        rcases hb : isPyWhite c
        · rfl
        · exfalso
          have hid : stripLeft (stripLeft l) = stripLeft l := by
            simp [stripLeft, List.dropWhile_idempotent]
          rw [← hs] at hid
          simp only [List.cons_append] at hid
          rw [stripLeft_cons_white hb] at hid
          have hlen : (stripLeft (m ++ s)).length ≤ (m ++ s).length :=
            (List.dropWhile_suffix _).length_le
          have hlen2 := congrArg List.length hid
          simp only [List.length_cons] at hlen2
          omega
      exact stripLeft_cons_nonwhite hpc
  · exact List.rdropWhile_idempotent _ _

theorem pyStrip_fixed_getLast_nonwhite {l : List Char} (hfix : pyStrip l = l)
    (hne : l ≠ []) : isPyWhite (l.getLast hne) = false := by
  have h2 := (pyStrip_fixed_parts hfix).2
  rw [stripRight, List.rdropWhile_eq_self_iff] at h2
  simpa using h2 hne

theorem canonicalTerm_parts {q : List Char} (h : canonicalTerm q = true) :
    pyStrip q ≠ [] ∧ isRangeOpStart (pyStrip q) = true ∧ (pyStrip q).contains '*' = false := by
  simp only [canonicalTerm, Bool.and_eq_true, decide_eq_true_eq, Bool.not_eq_true'] at h
  exact ⟨h.1.1, h.1.2, h.2⟩

theorem convert_term_eval {q : List Char} (hq : canonicalTerm q = true)
    (hb : '|' ∉ pyStrip q) (hcm : ',' ∉ pyStrip q) (f : Nat) :
    convert_spec_fuel (f + 1) q = .ok (termNorm q) := by
  obtain ⟨h1, h2, h3⟩ := canonicalTerm_parts hq
  have hb' : (pyStrip q).contains '|' = false := contains_eq_false_of_not_mem hb
  have hcm' : (pyStrip q).contains ',' = false := contains_eq_false_of_not_mem hcm
  obtain ⟨hcar, htil⟩ := rangeOp_not_caret_tilde h2
  simp only [convert_spec_fuel, hb', hcm', hcar, htil, h3, Bool.false_eq_true, if_false]
  rw [if_pos h2]
  rfl

theorem termNorm_props {q : List Char} (hq : canonicalTerm q = true) :
    termNorm q ≠ [] ∧ pyStrip (termNorm q) = termNorm q ∧
    canonicalTerm (termNorm q) = true ∧ termNorm (termNorm q) = termNorm q ∧
    (∀ x ∈ termNorm q, x ∈ pyStrip q) ∧ ' ' ∉ termNorm q := by
  obtain ⟨h1, h2, h3⟩ := canonicalTerm_parts hq
  have hmem : ∀ x ∈ termNorm q, x ∈ pyStrip q := by
    intro x hx
    exact (List.mem_filter.mp hx).1
  have hnospace : ' ' ∉ termNorm q := by
    intro hx
    have := (List.mem_filter.mp hx).2
    simp at this
  obtain ⟨c, r, hshape, hc⟩ := rangeOp_shapes h2
  have hcns : (decide (c ≠ ' ')) = true := by
    rcases hc with rfl | rfl | rfl <;> decide
  have hfshape : termNorm q = c :: (r.filter (fun x => x ≠ ' ')) := by
    simp only [termNorm, hshape, List.filter_cons, hcns, if_true]
  have hne : termNorm q ≠ [] := by rw [hfshape]; simp
  have hcnw : isPyWhite c = false := by
    rcases hc with rfl | rfl | rfl <;> rfl
  have hfix : pyStrip (termNorm q) = termNorm q := by
    refine pyStrip_of_parts ?_ ?_
    · rw [hfshape]
      exact stripLeft_cons_nonwhite hcnw
    · have htfix : pyStrip (pyStrip q) = pyStrip q := pyStrip_idem q
      have hlast : isPyWhite ((pyStrip q).getLast h1) = false :=
        pyStrip_fixed_getLast_nonwhite htfix h1
      have hdec : pyStrip q = (pyStrip q).dropLast ++ [(pyStrip q).getLast h1] :=
        (List.dropLast_append_getLast h1).symm
      have hlastns' : ¬(pyStrip q).getLast h1 = ' ' := by
        intro hsp
        rw [hsp] at hlast
        exact absurd hlast (by decide)
      have hlastns : (decide ((pyStrip q).getLast h1 ≠ ' ')) = true := by
        simpa using hlastns'
      have : termNorm q
          = (pyStrip q).dropLast.filter (fun x => x ≠ ' ') ++ [(pyStrip q).getLast h1] := by
        rw [termNorm]
        conv_lhs => rw [hdec]
        rw [List.filter_append]
        simp [hlastns, hlastns']
      rw [this]
      exact stripRight_concat_nonwhite hlast
  have hcanon : canonicalTerm (termNorm q) = true := by
    have hop : isRangeOpStart (termNorm q) = true := rangeOp_filter h2
    have hstar' : '*' ∉ termNorm q := by
      intro hm
      have hmm : '*' ∈ pyStrip q := hmem '*' hm
      simp only [List.contains, List.elem_eq_mem] at h3
      exact absurd (decide_eq_true hmm) (by simp [h3])
    simp only [canonicalTerm]
    rw [hfix]
    simp [hop, hne, contains_eq_false_of_not_mem hstar', hstar']
  have hidem : termNorm (termNorm q) = termNorm q := by
    rw [termNorm, hfix]
    refine List.filter_eq_self.mpr fun a ha => ?_
    simp only [decide_eq_true_eq]
    intro hsp
    rw [hsp] at ha
    exact hnospace ha
  exact ⟨hne, hfix, hcanon, hidem, hmem, hnospace⟩

theorem convert_term_fixed {q : List Char} (hq : canonicalTerm q = true)
    (hb : '|' ∉ pyStrip q) (hcm : ',' ∉ pyStrip q) (f : Nat) :
    convert_spec_fuel (f + 1) (termNorm q) = .ok (termNorm q) := by
  obtain ⟨hne, hfix, hcanon, hidem, hmem, _⟩ := termNorm_props hq
  have hb' : '|' ∉ pyStrip (termNorm q) := by
    rw [hfix]
    exact fun hm => hb (hmem _ hm)
  have hcm' : ',' ∉ pyStrip (termNorm q) := by
    rw [hfix]
    exact fun hm => hcm (hmem _ hm)
  rw [convert_term_eval hcanon hb' hcm' f, hidem]

theorem contains_false_not_mem {l : List Char} {c : Char} (h : l.contains c = false) :
    c ∉ l := by
  intro hm
  have hd := decide_eq_true hm
  simp only [List.contains, List.elem_eq_mem] at h
  rw [hd] at h
  cases h

theorem canonicalTerm_strip_congr (p : List Char) :
    canonicalTerm (pyStrip p) = canonicalTerm p := by
  simp [canonicalTerm, pyStrip_idem]

theorem contains_true_mem {l : List Char} {c : Char} (h : l.contains c = true) :
    c ∈ l := by
  simp only [List.contains, List.elem_eq_mem] at h
  exact of_decide_eq_true h

theorem canonicalAnd_parts {p : List Char} (hp : canonicalAnd p = true) :
    '|' ∉ pyStrip p ∧
    ((pyStrip p).contains ',' = true →
      ∀ x ∈ pySplit ',' (pyStrip p), canonicalTerm x = true) ∧
    ((pyStrip p).contains ',' = false → canonicalTerm p = true) := by
  simp only [canonicalAnd, Bool.and_eq_true, Bool.not_eq_true'] at hp
  obtain ⟨hb, hrest⟩ := hp
  refine ⟨contains_false_not_mem hb, ?_, ?_⟩
  · intro hcm x hx
    rw [if_pos hcm] at hrest
    exact List.all_eq_true.mp hrest x hx
  · intro hcm
    rw [hcm] at hrest
    simp only [Bool.false_eq_true, if_false] at hrest
    rw [← canonicalTerm_strip_congr]
    exact hrest

theorem piece_no_bar_comma {p x : List Char} (hb : '|' ∉ pyStrip p)
    (hx : x ∈ pySplit ',' (pyStrip p)) :
    '|' ∉ pyStrip x ∧ ',' ∉ pyStrip x := by
  constructor
  · intro hm
    exact hb (mem_of_mem_pySplit hx (mem_pyStrip hm))
  · intro hm
    exact mem_pySplit_not_mem hx (mem_pyStrip hm)

theorem convert_and_eval {p : List Char} (hp : canonicalAnd p = true) (f : Nat) :
    convert_spec_fuel (f + 2) p = .ok (andNorm p) := by
  obtain ⟨hb, hcomma, hnocomma⟩ := canonicalAnd_parts hp
  have hb' : (pyStrip p).contains '|' = false := contains_eq_false_of_not_mem hb
  rcases hcm : (pyStrip p).contains ',' with _ | _
  · have hq := hnocomma hcm
    have hcm' : ',' ∉ pyStrip p := contains_false_not_mem hcm
    show convert_spec_fuel ((f + 1) + 1) p = .ok (andNorm p)
    rw [convert_term_eval hq hb hcm' (f + 1)]
    rw [andNorm, if_neg (by rw [hcm]; simp)]
  · have hall := hcomma hcm
    have hmap : (pySplit ',' (pyStrip p)).map (convert_spec_fuel (f + 1))
        = (pySplit ',' (pyStrip p)).map (fun x => .ok (termNorm x)) := by
      refine List.map_congr_left fun x hx => ?_
      obtain ⟨hxb, hxc⟩ := piece_no_bar_comma hb hx
      exact convert_term_eval (hall x hx) hxb hxc f
    show convert_spec_fuel ((f + 1) + 1) p = .ok (andNorm p)
    rw [convert_spec_fuel]
    simp only [hb', Bool.false_eq_true, if_false, hcm, if_true]
    rw [hmap, show (pySplit ',' (pyStrip p)).map (fun x => Except.ok (termNorm x))
        = ((pySplit ',' (pyStrip p)).map termNorm).map Except.ok from by
      rw [List.map_map]; rfl]
    rw [collectE_map_ok]
    rw [andNorm, if_pos hcm]

theorem andNorm_props {p : List Char} (hp : canonicalAnd p = true) :
    andNorm p ≠ [] ∧ pyStrip (andNorm p) = andNorm p ∧ '|' ∉ andNorm p ∧
    (∀ f, convert_spec_fuel (f + 2) (andNorm p) = .ok (andNorm p)) := by
  obtain ⟨hb, hcomma, hnocomma⟩ := canonicalAnd_parts hp
  rcases hcm : (pyStrip p).contains ',' with _ | _
  · have hq := hnocomma hcm
    have hcm' : ',' ∉ pyStrip p := contains_false_not_mem hcm
    have han : andNorm p = termNorm p := by rw [andNorm, if_neg (by rw [hcm]; simp)]
    obtain ⟨hne, hfix, _, _, hmem, _⟩ := termNorm_props hq
    refine ⟨han ▸ hne, han ▸ hfix, ?_, ?_⟩
    · rw [han]
      exact fun hm => hb (hmem _ hm)
    · intro f
      rw [han]
      show convert_spec_fuel ((f + 1) + 1) (termNorm p) = .ok (termNorm p)
      exact convert_term_fixed hq hb hcm' (f + 1)
  · have hall := hcomma hcm
    have hprops : ∀ x ∈ pySplit ',' (pyStrip p),
        termNorm x ≠ [] ∧ pyStrip (termNorm x) = termNorm x ∧
        (∀ y ∈ termNorm x, y ∈ pyStrip x) := by
      intro x hx
      obtain ⟨hne, hfix, _, _, hmem, _⟩ := termNorm_props (hall x hx)
      exact ⟨hne, hfix, hmem⟩
    have hpiecesne : pySplit ',' (pyStrip p) ≠ [] := pySplit_ne_nil _ _
    have hrsne : (pySplit ',' (pyStrip p)).map termNorm ≠ [] := by
      simp [hpiecesne]
    have hrsel : ∀ x ∈ (pySplit ',' (pyStrip p)).map termNorm, x ≠ [] ∧ pyStrip x = x := by
      intro x hx
      obtain ⟨y, hy, rfl⟩ := List.mem_map.mp hx
      exact ⟨(hprops y hy).1, (hprops y hy).2.1⟩
    have han : andNorm p = joinSep [','] ((pySplit ',' (pyStrip p)).map termNorm) := by
      rw [andNorm, if_pos hcm]
    have hbar : '|' ∉ andNorm p := by
      rw [han]
      intro hm
      rcases mem_joinSep hm with hm | ⟨q, hq, hmq⟩
      · simp at hm
      · obtain ⟨y, hy, rfl⟩ := List.mem_map.mp hq
        exact hb (mem_of_mem_pySplit hy (mem_pyStrip ((hprops y hy).2.2 _ hmq)))
    have hfix : pyStrip (andNorm p) = andNorm p := by
      rw [han]
      exact pyStrip_joinSep_fixed hrsne hrsel
    have hne : andNorm p ≠ [] := by
      rw [han]
      exact joinSep_ne_nil hrsne fun x hx => (hrsel x hx).1
    refine ⟨hne, hfix, hbar, ?_⟩
    intro f
    have hcmem : ',' ∈ pyStrip p := contains_true_mem hcm
    have hlen2 : 2 ≤ (pySplit ',' (pyStrip p)).length := pySplit_length_ge_two hcmem
    obtain ⟨r1, r2, rt, hrshape⟩ : ∃ r1 r2 rt,
        (pySplit ',' (pyStrip p)).map termNorm = r1 :: r2 :: rt := by
      rcases hsp : (pySplit ',' (pyStrip p)) with _ | ⟨a, _ | ⟨b, t⟩⟩
      · simp [hsp] at hlen2
      · simp [hsp] at hlen2
      · exact ⟨termNorm a, termNorm b, t.map termNorm, by simp [hsp]⟩
    have hcmr : (andNorm p).contains ',' = true := by
      rw [han, hrshape]
      have : ',' ∈ joinSep [','] (r1 :: r2 :: rt) := by
        simp only [joinSep]
        refine List.mem_append.mpr (Or.inl (List.mem_append.mpr (Or.inr ?_)))
        simp
      simp only [List.contains, List.elem_eq_mem]
      exact decide_eq_true this
    have hbar' : (andNorm p).contains '|' = false := contains_eq_false_of_not_mem hbar
    have hsplitr : pySplit ',' (andNorm p) = (pySplit ',' (pyStrip p)).map termNorm := by
      rw [han]
      refine pySplit_joinSep hrsne ?_
      intro x hx
      obtain ⟨y, hy, rfl⟩ := List.mem_map.mp hx
      intro hm
      exact mem_pySplit_not_mem hy (mem_pyStrip ((hprops y hy).2.2 _ hm))
    have hmapr : ((pySplit ',' (pyStrip p)).map termNorm).map (convert_spec_fuel (f + 1))
        = ((pySplit ',' (pyStrip p)).map termNorm).map Except.ok := by
      refine List.map_congr_left fun x hx => ?_
      obtain ⟨y, hy, rfl⟩ := List.mem_map.mp hx
      obtain ⟨hyb, hyc⟩ := piece_no_bar_comma hb hy
      exact convert_term_fixed (hall y hy) hyb hyc f
    show convert_spec_fuel ((f + 1) + 1) (andNorm p) = .ok (andNorm p)
    rw [convert_spec_fuel]
    simp only [hfix, hbar', Bool.false_eq_true, if_false, hcmr, if_true]
    rw [hsplitr, hmapr, collectE_map_ok]
    show Except.ok (joinSep [','] ((pySplit ',' (pyStrip p)).map termNorm))
        = Except.ok (andNorm p)
    rw [han]

theorem canonicalAnd_strip_congr (p : List Char) :
    canonicalAnd (pyStrip p) = canonicalAnd p := by
  simp [canonicalAnd, pyStrip_idem]

theorem canonicalSpec_parts {c : List Char} (h : canonicalSpec c = true) :
    ((pyStrip c).contains '|' = true →
      ∀ x ∈ pySplit '|' (pyStrip c), canonicalAnd x = true)
    ∧ ((pyStrip c).contains '|' = false → canonicalAnd c = true) := by
  simp only [canonicalSpec] at h
  constructor
  · intro hbar x hx
    rw [if_pos hbar] at h
    exact List.all_eq_true.mp h x hx
  · intro hbar
    rw [hbar] at h
    simp only [Bool.false_eq_true, if_false] at h
    rw [← canonicalAnd_strip_congr]
    exact h

theorem pySplit_or_join_map (g : Nat) :
    ∀ (rs : List (List Char)), rs ≠ [] →
      (∀ x ∈ rs, '|' ∉ x ∧ pyStrip x = x ∧ convert_spec_fuel (g + 2) x = .ok x) →
      ((pySplit '|' (joinSep (chars " | ") rs)).map (convert_spec_fuel (g + 2))
        = rs.map .ok)
      ∧ ((pySplit '|' (' ' :: joinSep (chars " | ") rs)).map (convert_spec_fuel (g + 2))
        = rs.map .ok) := by
  intro rs
  induction rs with
  | nil => intro h; exact absurd rfl h
  | cons a rest ih =>
    intro _ hel
    have ha := hel a (by simp)
    rcases rest with _ | ⟨b, t⟩
    · constructor
      · simp only [joinSep]
        rw [pySplit_not_mem ha.1]
        simp [ha.2.2]
      · simp only [joinSep]
        have hnb : '|' ∉ ' ' :: a := by
          intro hm
          rcases List.mem_cons.mp hm with hm | hm
          · exact absurd hm.symm (by decide)
          · exact ha.1 hm
        rw [pySplit_not_mem hnb]
        have hcongr : convert_spec_fuel ((g + 1) + 1) (' ' :: a)
            = convert_spec_fuel ((g + 1) + 1) a :=
          convert_fuel_strip_congr (g + 1) (pyStrip_cons_white rfl)
        simp only [List.map]
        rw [show (g + 2) = (g + 1) + 1 from rfl, hcongr, ha.2.2]
    · have hrest : ∀ x ∈ b :: t, '|' ∉ x ∧ pyStrip x = x ∧
          convert_spec_fuel (g + 2) x = .ok x := fun x hx => hel x (by simp [hx])
      have hih := ih (by simp) hrest
      have hnba : '|' ∉ a ++ [' '] := by
        intro hm
        rcases List.mem_append.mp hm with hm | hm
        · exact ha.1 hm
        · simp at hm
      have hJ : joinSep (chars " | ") (a :: b :: t)
          = (a ++ [' ']) ++ '|' :: (' ' :: joinSep (chars " | ") (b :: t)) := by
        simp [joinSep, chars]
      have hpad : convert_spec_fuel ((g + 1) + 1) (a ++ [' '])
          = convert_spec_fuel ((g + 1) + 1) a :=
        convert_fuel_strip_congr (g + 1) (pyStrip_append_white rfl)
      constructor
      · rw [hJ, pySplit_append_cons hnba]
        simp only [List.map]
        rw [show (g + 2) = (g + 1) + 1 from rfl, hpad, ha.2.2]
        rw [show ((g + 1) + 1) = g + 2 from rfl, hih.2]
        simp
      · have hnba' : '|' ∉ ' ' :: (a ++ [' ']) := by
          intro hm
          rcases List.mem_cons.mp hm with hm | hm
          · exact absurd hm.symm (by decide)
          · exact hnba hm
        have hshape : ' ' :: joinSep (chars " | ") (a :: b :: t)
            = (' ' :: (a ++ [' '])) ++ '|' :: (' ' :: joinSep (chars " | ") (b :: t)) := by
          rw [hJ]
          simp
        rw [hshape, pySplit_append_cons hnba']
        simp only [List.map]
        have hpad2 : convert_spec_fuel ((g + 1) + 1) (' ' :: (a ++ [' ']))
            = convert_spec_fuel ((g + 1) + 1) a := by
          refine convert_fuel_strip_congr (g + 1) ?_
          have h1 : pyStrip (' ' :: (a ++ [' '])) = pyStrip (a ++ [' ']) :=
            pyStrip_cons_white (show isPyWhite ' ' = true from rfl)
          have h2 : pyStrip (a ++ [' ']) = pyStrip a :=
            pyStrip_append_white (show isPyWhite ' ' = true from rfl)
          rw [h1, h2]
        rw [show (g + 2) = (g + 1) + 1 from rfl, hpad2, ha.2.2]
        rw [show ((g + 1) + 1) = g + 2 from rfl, hih.2]
        simp

/-! ### Claim C10: idempotence on canonical range strings -/

/-- C10: normalization is idempotent on canonical range strings.  For every
string whose stripped form is a `|`- or comma-joined list of terms that
each (after stripping) are nonempty, begin with a range operator and
contain no wildcard star, `convert_spec` succeeds and its result is a fixed
point of `convert_spec`. -/
theorem c10_idempotent (c : List Char) (h : canonicalSpec c = true) :
    ∃ r, convert_spec c = .ok r ∧ convert_spec r = .ok r := by
  obtain ⟨hsome, hnone⟩ := canonicalSpec_parts h
  rcases hbar : (pyStrip c).contains '|' with _ | _
  · refine ⟨andNorm c, ?_, ?_⟩
    · exact convert_and_eval (hnone hbar) 1
    · exact (andNorm_props (hnone hbar)).2.2.2 1
  · have hall := hsome hbar
    have hprops : ∀ x ∈ pySplit '|' (pyStrip c),
        andNorm x ≠ [] ∧ pyStrip (andNorm x) = andNorm x ∧ '|' ∉ andNorm x ∧
        (∀ f, convert_spec_fuel (f + 2) (andNorm x) = .ok (andNorm x)) :=
      fun x hx => andNorm_props (hall x hx)
    have hel : ∀ x ∈ (pySplit '|' (pyStrip c)).map andNorm,
        '|' ∉ x ∧ pyStrip x = x ∧ convert_spec_fuel (0 + 2) x = .ok x := by
      intro x hx
      obtain ⟨y, hy, rfl⟩ := List.mem_map.mp hx
      exact ⟨(hprops y hy).2.2.1, (hprops y hy).2.1, (hprops y hy).2.2.2 0⟩
    have hrsne : (pySplit '|' (pyStrip c)).map andNorm ≠ [] := by
      simp [pySplit_ne_nil]
    have hmap1 : (pySplit '|' (pyStrip c)).map (convert_spec_fuel 2)
        = ((pySplit '|' (pyStrip c)).map andNorm).map Except.ok := by
      rw [List.map_map]
      refine List.map_congr_left fun x hx => ?_
      exact convert_and_eval (hall x hx) 0
    refine ⟨joinSep (chars " | ") ((pySplit '|' (pyStrip c)).map andNorm), ?_, ?_⟩
    · show convert_spec_fuel (2 + 1) c = _
      rw [convert_spec_fuel]
      simp only [hbar, if_true]
      rw [hmap1, collectE_map_ok]
    · set rs := (pySplit '|' (pyStrip c)).map andNorm with hrs
      have hfixR : pyStrip (joinSep (chars " | ") rs) = joinSep (chars " | ") rs := by
        refine pyStrip_joinSep_fixed hrsne fun x hx => ?_
        obtain ⟨y, hy, rfl⟩ := List.mem_map.mp (hrs ▸ hx)
        exact ⟨(hprops y hy).1, (hprops y hy).2.1⟩
      have hlen2 : 2 ≤ (pySplit '|' (pyStrip c)).length :=
        pySplit_length_ge_two (contains_true_mem hbar)
      have hbarR : (joinSep (chars " | ") rs).contains '|' = true := by
        obtain ⟨r1, r2, rt, hrshape⟩ : ∃ r1 r2 rt, rs = r1 :: r2 :: rt := by
          rcases hsp : pySplit '|' (pyStrip c) with _ | ⟨x, _ | ⟨y, t⟩⟩
          · simp [hsp] at hlen2
          · simp [hsp] at hlen2
          · exact ⟨andNorm x, andNorm y, t.map andNorm, by simp [hrs, hsp]⟩
        rw [hrshape]
        have hm : '|' ∈ joinSep (chars " | ") (r1 :: r2 :: rt) := by
          simp only [joinSep]
          refine List.mem_append.mpr (Or.inl (List.mem_append.mpr (Or.inr ?_)))
          simp [chars]
        simp only [List.contains, List.elem_eq_mem]
        exact decide_eq_true hm
      have hLJ := (pySplit_or_join_map 0 rs hrsne
        fun x hx => hel x (hrs ▸ hx)).1
      show convert_spec_fuel (2 + 1) (joinSep (chars " | ") rs) = _
      rw [convert_spec_fuel]
      simp only [hfixR, hbarR, if_true]
      rw [hLJ, collectE_map_ok]

/-- C10 witness: a concrete canonical string with commas, a union and
internal whitespace, on which `convert_spec` is idempotent. -/
theorem c10_idempotent_witness :
    ∃ r, convert_spec (chars ">=1.0 ,  <2.0 | ==3.0") = .ok r
      ∧ convert_spec r = .ok r :=
  c10_idempotent (chars ">=1.0 ,  <2.0 | ==3.0") (by decide)

end Pipr
